import Mathlib

/-!
# genauthors: a verification development

A shallow embedding of `script/genauthors/genauthors.go` and proofs about
its parser, aggregator, sorter and GitHub-login enrichment.

Modelling conventions.

* A Go `string` holding UTF-8 text is the list of its code points
  (`Str := List Char`).  Go's `regexp` and `strings.TrimSpace` work on code
  points; Go's `<` on strings is byte-wise, and is modelled as the
  lexicographic order of the UTF-8 encodings (`strLt`).
* Go's `int` is the 64-bit signed integer of the usual targets: values are
  `Int`s and every arithmetic result of the program goes through `wrapInt`
  (two's complement wrap-around); `strconv.Atoi` rejects values out of range.
* A Go `map[string]T` is an association list with distinct keys in insertion
  order.  The (unspecified) order in which Go enumerates a map is a separate
  parameter wherever the program ranges over a map and the order can matter.
* `*Contribution` values stored in the map are shared with the `items`
  slice; in-place mutation through either alias is modelled by updating the
  value wherever it is held.
-/

namespace Genauthors

/-! ## Strings -/

/-- Go strings, as sequences of code points. -/
abbrev Str := List Char

/-- UTF-8 encoding of a code point, as a list of byte values. -/
def utf8Bytes (c : Char) : List Nat :=
  let n := c.toNat
  if n < 0x80 then [n]
  else if n < 0x800 then [0xC0 + n / 64, 0x80 + n % 64]
  else if n < 0x10000 then [0xE0 + n / 4096, 0x80 + n / 64 % 64, 0x80 + n % 64]
  else [0xF0 + n / 262144, 0x80 + n / 4096 % 64, 0x80 + n / 64 % 64, 0x80 + n % 64]

/-- The bytes of a Go string. -/
def strBytes : Str → List Nat
  | [] => []
  | c :: cs => utf8Bytes c ++ strBytes cs

/-- Lexicographic comparison of byte sequences. -/
def bytesLt : List Nat → List Nat → Bool
  | _, [] => false
  | [], _ :: _ => true
  | a :: as, b :: bs => if a < b then true else if b < a then false else bytesLt as bs

/-- Go's `s < t` on strings: byte-wise lexicographic order. -/
def strLt (s t : Str) : Bool := bytesLt (strBytes s) (strBytes t)

/-- Go's `unicode.IsSpace`: the code points with the White Space property. -/
def isSpace (c : Char) : Bool :=
  let n := c.toNat
  n = 0x09 || n = 0x0A || n = 0x0B || n = 0x0C || n = 0x0D || n = 0x20 ||
  n = 0x85 || n = 0xA0 || n = 0x1680 || (0x2000 ≤ n && n ≤ 0x200A) ||
  n = 0x2028 || n = 0x2029 || n = 0x202F || n = 0x205F || n = 0x3000

/-- Go's `strings.TrimSpace`: drop all leading and trailing white space. -/
def trimSpace (s : Str) : Str :=
  ((s.dropWhile isSpace).reverse.dropWhile isSpace).reverse

/-- Go's `strings.Split(s, "\n")`: the pieces between line feeds; always at
least one piece. -/
def splitLines : Str → List Str
  | [] => [[]]
  | c :: cs =>
    if c = '\n' then [] :: splitLines cs
    else match splitLines cs with
      | [] => [[c]]
      | l :: ls => (c :: l) :: ls

/-! ## Machine integers -/

/-- Wrap an integer into the range of Go's 64-bit `int`. -/
def wrapInt (x : Int) : Int := (x + 2 ^ 63) % 2 ^ 64 - 2 ^ 63

/-- Value of a non-empty string of ASCII decimal digits, most significant
digit first; `none` when the string is empty or holds another character. -/
def digitsValue : Str → Nat → Option Nat
  | [], _ => none
  | [c], acc => if '0' ≤ c ∧ c ≤ '9' then some (acc * 10 + (c.toNat - 48)) else none
  | c :: d :: ds, acc =>
    if '0' ≤ c ∧ c ≤ '9' then digitsValue (d :: ds) (acc * 10 + (c.toNat - 48)) else none

/-- Go's `strconv.Atoi`: an optional sign followed by decimal digits; an
error (`none`) on any other syntax and when the value does not fit `int`. -/
def atoi (s : Str) : Option Int :=
  match s with
  | '-' :: ds =>
    match digitsValue ds 0 with
    | some n => if n ≤ 2 ^ 63 then some (-(n : Int)) else none
    | none => none
  | '+' :: ds =>
    match digitsValue ds 0 with
    | some n => if n < 2 ^ 63 then some (n : Int) else none
    | none => none
  | ds =>
    match digitsValue ds 0 with
    | some n => if n < 2 ^ 63 then some (n : Int) else none
    | none => none

/-! ## Regular expressions

The fragment of Go's `regexp` syntax used by the two patterns of the program,
with Go's leftmost-first (backtracking priority) semantics and greedy
repetition. -/

/-- A pattern item that matches exactly one code point. -/
inductive Atom where
  /-- A literal character. -/
  | chr (c : Char)
  /-- A bracket expression: a list of inclusive ranges, possibly negated. -/
  | cls (negated : Bool) (ranges : List (Char × Char))

/-- Whether an atom accepts a code point. -/
def Atom.test : Atom → Char → Bool
  | .chr c, x => x = c
  | .cls negated ranges, x => (ranges.any fun r => r.1 ≤ x ∧ x ≤ r.2) != negated

/-- Regular expressions. -/
inductive Re where
  /-- The empty expression. -/
  | empty
  /-- `^`: beginning of text. -/
  | bol
  /-- `$`: end of text. -/
  | eol
  /-- One atom. -/
  | one (a : Atom)
  /-- Greedy `a*`. -/
  | star (a : Atom)
  /-- Greedy `a+`. -/
  | plus (a : Atom)
  /-- A capturing group with its index. -/
  | group (i : Nat) (body : Re)
  /-- Concatenation. -/
  | seq (r s : Re)

/-- Captured texts by group index. -/
abbrev Caps := List (Nat × Str)

/-- Record the text of group `i`, replacing an earlier record. -/
def setCap (i : Nat) (t : Str) : Caps → Caps
  | [] => [(i, t)]
  | (j, u) :: rest => if j = i then (i, t) :: rest else (j, u) :: setCap i t rest

/-- Text of group `i`; the empty string when the group did not take part. -/
def getCap (i : Nat) : Caps → Str
  | [] => []
  | (j, u) :: rest => if j = i then u else getCap i rest

/-- Matcher state: number of code points before the cursor, the text after
the cursor, and the captures so far. -/
structure MState where
  pos : Nat
  rest : Str
  caps : Caps

/-- Greedy repetition of an atom followed by the continuation `k`: the
longest run is tried first, then shorter ones. -/
def starAtom (a : Atom) (k : MState → Option Caps) : Nat → Str → Caps → Option Caps
  | pos, [], caps => k ⟨pos, [], caps⟩
  | pos, c :: cs, caps =>
    if a.test c then
      match starAtom a k (pos + 1) cs caps with
      | some r => some r
      | none => k ⟨pos, c :: cs, caps⟩
    else k ⟨pos, c :: cs, caps⟩

/-- Backtracking matcher in continuation-passing style: `run r s k` matches
`r` at state `s` and hands every candidate end state to `k`, in priority
order, until `k` accepts one. -/
def Re.run : Re → MState → (MState → Option Caps) → Option Caps
  | .empty, s, k => k s
  | .bol, s, k => if s.pos = 0 then k s else none
  | .eol, s, k => if s.rest = [] then k s else none
  | .one a, s, k =>
    match s.rest with
    | [] => none
    | c :: cs => if a.test c then k ⟨s.pos + 1, cs, s.caps⟩ else none
  | .star a, s, k => starAtom a k s.pos s.rest s.caps
  | .plus a, s, k =>
    match s.rest with
    | [] => none
    | c :: cs => if a.test c then starAtom a k (s.pos + 1) cs s.caps else none
  | .group i body, s, k =>
    body.run s fun s1 =>
      k ⟨s1.pos, s1.rest, setCap i (s.rest.take (s.rest.length - s1.rest.length)) s1.caps⟩
  | .seq r1 r2, s, k => r1.run s fun s1 => r2.run s1 k

/-- Number of capturing groups. -/
def Re.numSubexp : Re → Nat
  | .group _ body => body.numSubexp + 1
  | .seq r s => r.numSubexp + s.numSubexp
  | _ => 0

/-- Try to match at the cursor; on failure move the cursor one code point
to the right and try again (leftmost match). -/
def findFrom (re : Re) : Nat → Str → Option Caps
  | pos, [] => (Re.group 0 re).run ⟨pos, [], []⟩ fun s => some s.caps
  | pos, c :: cs =>
    match (Re.group 0 re).run ⟨pos, c :: cs, []⟩ fun s => some s.caps with
    | some r => some r
    | none => findFrom re (pos + 1) cs

/-- Go's `(*Regexp).FindStringSubmatch`: the text of the leftmost match and
of each capturing group, or `none` (Go's `nil`) when there is no match. -/
def findStringSubmatch (re : Re) (s : Str) : Option (List Str) :=
  match findFrom re 0 s with
  | none => none
  | some caps => some ((List.range (re.numSubexp + 1)).map fun i => getCap i caps)

/-! ## The program's data -/

/-- Record `Contribution`. -/
structure Contribution where
  Login : Str
  Name : Str
  Email : Str
  Commits : Int
  deriving DecidableEq, Repr

/-- Pattern `[^<]`. -/
def notLt : Atom := .cls true [('<', '<')]

/-- Pattern `[^>]`. -/
def notGt : Atom := .cls true [('>', '>')]

/-- Pattern `[0-9]`. -/
def digit : Atom := .cls false [('0', '9')]

/-- Pattern `^()([^<]*) +<([^>]*)>$`. -/
def regexMailmap : Re :=
  .seq .bol (.seq (.group 1 .empty) (.seq (.group 2 (.star notLt))
    (.seq (.plus (.chr ' ')) (.seq (.one (.chr '<')) (.seq (.group 3 (.star notGt))
      (.seq (.one (.chr '>')) .eol))))))

/-- Pattern `^([0-9]+)\t([^<]*) +<([^>]*)>$`. -/
def regexContribution : Re :=
  .seq .bol (.seq (.group 1 (.plus digit)) (.seq (.one (.chr '\t'))
    (.seq (.group 2 (.star notLt)) (.seq (.plus (.chr ' ')) (.seq (.one (.chr '<'))
      (.seq (.group 3 (.star notGt)) (.seq (.one (.chr '>')) .eol)))))))

/-- The bot identity. -/
def bot : Str := "fireworq.github@gmail.com".toList

/-- Table `initial`: commits before the OSS release. -/
def initial (email : Str) : Option Int :=
  if email = "tarao.gnn@gmail.com".toList then some 559
  else if email = "shibayu36@gmail.com".toList then some 31
  else if email = "hakobe@gmail.com".toList then some 28
  else if email = "yuki.tsubo@gmail.com".toList then some 25
  else if email = "fly.me.to.the.moon1204@gmail.com".toList then some 17
  else none

/-- Function `parseContribution`. -/
def parseContribution (regex : Re) (line : Str) : Option Contribution :=
  let line := trimSpace line
  if line.length ≤ 0 then none
  else
    match findStringSubmatch regex line with
    | none => none
    | some m =>
      if m.length < 4 then none
      else
        let email := m.getD 3 []
        if email = bot then none
        else if m.getD 1 [] ≠ [] then
          match atoi (m.getD 1 []) with
          | none => none
          | some commits => some { Login := [], Name := m.getD 2 [], Email := email, Commits := commits }
        else
          match initial email with
          | some i => some { Login := [], Name := m.getD 2 [], Email := email, Commits := i }
          | none => some { Login := [], Name := m.getD 2 [], Email := email, Commits := 0 }

/-! ## Maps -/

/-- A Go `map[string]V`: an association list with distinct keys. -/
abbrev GoMap (V : Type) := List (Str × V)

/-- Map lookup `m[k]` with its `ok` flag. -/
def mapGet {V : Type} : GoMap V → Str → Option V
  | [], _ => none
  | (k1, v) :: rest, k => if k1 = k then some v else mapGet rest k

/-- Map assignment `m[k] = v`. -/
def mapSet {V : Type} : GoMap V → Str → V → GoMap V
  | [], k, v => [(k, v)]
  | (k1, v1) :: rest, k, v => if k1 = k then (k, v) :: rest else (k1, v1) :: mapSet rest k v

/-! ## Aggregation (function `main`, first half) -/

/-- Body of the loop over the lines of `.mailmap`. -/
def mailmapStep (contributions : GoMap Contribution) (line : Str) : GoMap Contribution :=
  match parseContribution regexMailmap line with
  | none => contributions
  | some c =>
    if c.Commits ≤ 0 then contributions
    else
      match mapGet contributions c.Email with
      | some _ => contributions
      | none => mapSet contributions c.Email c

/-- Body of the loop over the lines of the shortlog; `initial.Commits +=
c.Commits` updates the entry held by the map. -/
def logStep (contributions : GoMap Contribution) (line : Str) : GoMap Contribution :=
  match parseContribution regexContribution line with
  | none => contributions
  | some c =>
    if c.Commits ≤ 0 then contributions
    else
      match mapGet contributions c.Email with
      | some initial =>
        mapSet contributions c.Email { initial with Commits := wrapInt (initial.Commits + c.Commits) }
      | none => mapSet contributions c.Email c

/-- The map `contributions` after both passes of `main`. -/
def aggregate (mailmap list : Str) : GoMap Contribution :=
  (splitLines list).foldl logStep ((splitLines mailmap).foldl mailmapStep [])

/-! ## Sorting -/

/-- The comparison function handed to `sort.Slice`. -/
def less (a b : Contribution) : Bool :=
  let diff := wrapInt (a.Commits - b.Commits)
  decide (diff > 0) || (decide (diff = 0) && strLt a.Email b.Email)

/-- One pass of the inner loop of insertion sort: `x` moves left past every
element it is less than.  The sorted prefix is held in reverse. -/
def insertBack {α : Type} (lt : α → α → Bool) (x : α) : List α → List α
  | [] => [x]
  | y :: ys => if lt x y then y :: insertBack lt x ys else x :: y :: ys

/-- Go's `sort.Slice`, as the insertion sort the library runs on short
slices.  With the comparison of `main` on entries with distinct emails and
non-negative counts every sorting algorithm returns this list
(`sorted_perm_unique`). -/
def sortSlice {α : Type} (lt : α → α → Bool) (items : List α) : List α :=
  (items.foldl (fun acc x => insertBack lt x acc) []).reverse

/-! ## GitHub login names -/

/-- Record `GitHubUserMatch`. -/
structure GitHubUserMatch where
  Property : Str
  Fragment : Str

/-- Record `GitHubUser`. -/
structure GitHubUser where
  Login : Str
  Matches : List GitHubUserMatch

/-- Record `GitHubUserSearchResponse`. -/
structure GitHubUserSearchResponse where
  Items : List GitHubUser

/-- The user-search service as seen by the program: the outcome of the
request with the given sequence number (0 for the first request of the run)
built from the given batch of emails.  `none` is any failure on the way
(request construction, transport, reading the body, JSON decoding); `some`
is the decoded response. -/
abbrev SearchApi := Nat → List Str → Option GitHubUserSearchResponse

/-- The loop of `getGitHubLoginNames1` over `rslt.Items` and their
matches: every fragment is mapped to the login of the first user carrying
it. -/
def collectLogins (rslt : GitHubUserSearchResponse) : GoMap Str :=
  rslt.Items.foldl (fun r u =>
    u.Matches.foldl (fun r m =>
      match mapGet r m.Fragment with
      | some _ => r
      | none => mapSet r m.Fragment u.Login) r) []

/-- Function `getGitHubLoginNames1`.  `sent` is the log of the batches
requested so far; the result is Go's `(r, err)` with `none` for `nil, err`,
and the extended log. -/
def getGitHubLoginNames1 (api : SearchApi) (sent : List (List Str)) (emails : List Str) :
    Option (GoMap Str) × List (List Str) :=
  if emails.length ≤ 0 then (some [], sent)
  else
    match api sent.length emails with
    | none => (none, sent ++ [emails])
    | some rslt => (some (collectLogins rslt), sent ++ [emails])

/-- The inner loop of `getGitHubLoginNames`: copy the entries of `r` whose
key is not yet in `result`.  The keys of `r` are distinct, so the order in
which Go ranges over `r` does not matter (`mergeInto_enumeration`). -/
def mergeInto (result r : GoMap Str) : GoMap Str :=
  r.foldl (fun result kv =>
    match mapGet result kv.1 with
    | some _ => result
    | none => mapSet result kv.1 kv.2) result

/-- The slice expression `xs[lo:hi]`. -/
def slice {α : Type} (xs : List α) (lo hi : Nat) : List α := (xs.take hi).drop lo

/-- The loop of `getGitHubLoginNames` from index `i`, with a bound on the
number of iterations. -/
def getGitHubLoginNamesLoop (api : SearchApi) (emails : List Str) :
    Nat → Nat → GoMap Str → List (List Str) → GoMap Str × List (List Str)
  | 0, _, result, sent => (result, sent)
  | fuel + 1, i, result, sent =>
    if i < emails.length then
      let end_ := if i + 5 > emails.length then emails.length else i + 5
      match getGitHubLoginNames1 api sent (slice emails i end_) with
      | (some r, sent1) => getGitHubLoginNamesLoop api emails fuel (i + 5) (mergeInto result r) sent1
      | (none, sent1) => getGitHubLoginNamesLoop api emails fuel (i + 5) result sent1
    else (result, sent)

/-- Function `getGitHubLoginNames`: the returned map and the batches
requested, in order.  The loop runs at most `len(emails)` times. -/
def getGitHubLoginNames (api : SearchApi) (emails : List Str) : GoMap Str × List (List Str) :=
  getGitHubLoginNamesLoop api emails emails.length 0 [] []

/-! ## Rendering and `main` -/

/-- Decimal text of an `int`, as `text/template` prints it. -/
def itoa (x : Int) : Str :=
  match x with
  | Int.ofNat n => Nat.toDigits 10 n
  | Int.negSucc n => '-' :: Nat.toDigits 10 (n + 1)

/-- Text before the rows in the `markdown` template. -/
def markdownHeader : Str :=
  ("<!-- DO NOT MODIFY : this file is automatically generated by " ++
   "script/genauthors/genauthors.go -->\n\n# Authors\n\n" ++
   "This is the official list of Fireworq authors for copyright purposes.\n\n" ++
   "## Individual Persons\n\n" ++
   "|Name |E-mail  |GitHub|Commits |\n|:----|:-------|:-----|-------:|\n").toList

/-- Text after the rows in the `markdown` template. -/
def markdownFooter : Str :=
  ("\nItems are automatically added by `git shortlog -sne`.  Please add rules to " ++
   "[`.mailmap`](.mailmap) to keep it canonical (see \"MAPPING AUTHORS\" section of " ++
   "`git help shortlog` for the notation of the rules).  E-mail field must match your " ++
   "public E-mail setting on your GitHub account if you wish to show your GitHub " ++
   "account name.\n\n## Organizations\n\n- [Hatena Co., Ltd.](http://hatenacorp.jp/)\n\n").toList

/-- One row of the `markdown` template. -/
def markdownRow (c : Contribution) : Str :=
  "|".toList ++ c.Name ++ "|<".toList ++ c.Email ++ ">|".toList ++
  (if c.Login ≠ [] then
    "[@".toList ++ c.Login ++ "](https://github.com/".toList ++ c.Login ++ ")".toList
   else []) ++
  "|".toList ++ itoa c.Commits ++ "|\n".toList

/-- Text before the rows in the `plain` template. -/
def plainHeader : Str :=
  ("# This is the official list of Fireworq authors for copyright purposes.\n\n" ++
   "# This file is automatically generated by\n" ++
   "# script/genauthors/genauthors.go.  Items are automatically added by\n" ++
   "# git shortlog -sne.  Please add rules to .mailmap to keep it\n" ++
   "# canonical (see \"MAPPING AUTHORS\" section of git help shortlog for\n" ++
   "# the notation of the rules).\n\n# Individual Persons\n\n").toList

/-- Text after the rows in the `plain` template. -/
def plainFooter : Str := "\n## Organizations\n\nHatena Co., Ltd.\n".toList

/-- One row of the `plain` template. -/
def plainRow (c : Contribution) : Str :=
  c.Name ++ " <".toList ++ c.Email ++ ">\n".toList

/-- Template `markdown` executed on `items`. -/
def markdown (items : List Contribution) : Str :=
  markdownHeader ++ (items.map markdownRow).flatten ++ markdownFooter

/-- Template `plain` executed on `items`. -/
def plain (items : List Contribution) : Str :=
  plainHeader ++ (items.map plainRow).flatten ++ plainFooter

/-- The assignment `c.Login = login` of `main`, seen from the `items` slice
that shares the entries of the map. -/
def setLogin (gitHubUsers : GoMap Str) (c : Contribution) : Contribution :=
  match mapGet gitHubUsers c.Email with
  | some login => { c with Login := login }
  | none => c

/-- Second half of `main`, from the aggregated map on.  `ranged` is the
sequence of key/value pairs that `for k, v := range contributions` yields:
the entries of the map in an order the language leaves open. -/
def mainFrom (format : Str) (api : SearchApi) (ranged : GoMap Contribution) : Str :=
  let items := ranged.map fun kv => kv.2
  let emails := ranged.map fun kv => kv.1
  let items := sortSlice less items
  if format = "markdown".toList then
    let gitHubUsers := (getGitHubLoginNames api emails).1
    markdown (items.map (setLogin gitHubUsers))
  else plain items

/-- Function `main`: the text written to standard output, given the flag
`format`, the output `list` of the shortlog command, the text of `.mailmap`,
the search service, and the order `enumerate` in which the run-time happens
to range over the map. -/
def main (format list mailmap : Str) (api : SearchApi)
    (enumerate : GoMap Contribution → GoMap Contribution) : Str :=
  mainFrom format api (enumerate (aggregate mailmap list))

/-! ## Specification-side and auxiliary definitions -/

/-- Batch `k` of an email list: `emails[5k : min(5k+5, n)]`. -/
def batchOf (emails : List Str) (k : Nat) : List Str :=
  slice emails (5 * k) (min (5 * k + 5) emails.length)

/-- Outcome of the loop from index `i`: state after handling the batches
that start at `i`, `i + 5`, ... -/
def loopSpec (api : SearchApi) (emails : List Str) (i : Nat) :
    List Nat → GoMap Str → List (List Str) → GoMap Str × List (List Str)
  | [], result, sent => (result, sent)
  | j :: js, result, sent =>
    let b := slice emails (i + 5 * j) (min (i + 5 * j + 5) emails.length)
    match api sent.length b with
    | some r => loopSpec api emails i js (mergeInto result (collectLogins r)) (sent ++ [b])
    | none => loopSpec api emails i js result (sent ++ [b])

/-- Outcome of batch `k`: the mapping of a successful request, `none` for a
failed one. -/
def batchOutcome (api : SearchApi) (emails : List Str) (k : Nat) : Option (GoMap Str) :=
  (api k (batchOf emails k)).map collectLogins

/-- First-key-wins merge of a sequence of mappings, read at one key: the
value in the first mapping that has the key. -/
def firstKeyWins (ms : List (GoMap Str)) (key : Str) : Option Str :=
  ms.findSome? fun r => mapGet r key

/-- Indices of the capturing groups of an expression. -/
def Re.groups : Re → List Nat
  | .group i body => i :: body.groups
  | .seq r s => r.groups ++ s.groups
  | _ => []

/-- Range of Go's `int`. -/
def InRange (x : Int) : Prop := -2 ^ 63 ≤ x ∧ x < 2 ^ 63

/-- The record a line contributes to a pass: the parsed record when there is
one and its commit count is positive. -/
def surviving (regex : Re) (line : Str) : Option Contribution :=
  match parseContribution regex line with
  | some c => if c.Commits ≤ 0 then none else some c
  | none => none

/-- The records a text contributes to a pass, in line order. -/
def survivors (regex : Re) (text : Str) : List Contribution :=
  (splitLines text).filterMap (surviving regex)

/-- What the mailmap pass does with a surviving record. -/
def seedStep (contributions : GoMap Contribution) (c : Contribution) : GoMap Contribution :=
  match mapGet contributions c.Email with
  | some _ => contributions
  | none => mapSet contributions c.Email c

/-- What the log pass does with a surviving record. -/
def addStep (contributions : GoMap Contribution) (c : Contribution) : GoMap Contribution :=
  match mapGet contributions c.Email with
  | some initial =>
    mapSet contributions c.Email { initial with Commits := wrapInt (initial.Commits + c.Commits) }
  | none => mapSet contributions c.Email c

/-- The historical baseline `S(e)`: the table's count for `e` when some
mailmap line parses to `e` with a positive count, 0 otherwise. -/
def baseline (mailmap : Str) (e : Str) : Int :=
  if (survivors regexMailmap mailmap).any (fun c => decide (c.Email = e)) then
    (initial e).getD 0
  else 0

/-- The log count `L(e)`: the sum of the counts of the shortlog lines that
parse to `e` with a positive count. -/
def logCount (list : Str) (e : Str) : Int :=
  (((survivors regexContribution list).filter fun c => decide (c.Email = e)).map
    fun c => c.Commits).sum

/-- Effect of a sequence of log records on the entry of one email. -/
def addLookup (e : Str) : List Contribution → Option Contribution → Option Contribution
  | [], o => o
  | r :: rs, o =>
    addLookup e rs
      (if r.Email = e then
        match o with
        | some c => some { c with Commits := wrapInt (c.Commits + r.Commits) }
        | none => some r
      else o)

/-- Sum of the counts of the records of one email. -/
def countFor (e : Str) (rs : List Contribution) : Int :=
  ((rs.filter fun c => decide (c.Email = e)).map fun c => c.Commits).sum

/-- Well-formed map of contributions: distinct keys, each entry stored under
its own email. -/
def Keyed (m : GoMap Contribution) : Prop :=
  (m.map fun kv => kv.1).Nodup ∧ ∀ kv ∈ m, kv.1 = kv.2.Email

/-- The order of the rendered list: more commits first, then the byte-wise
smaller email. -/
def before (x y : Contribution) : Prop :=
  x.Commits > y.Commits ∨ (x.Commits = y.Commits ∧ strLt x.Email y.Email = true)

/-- A count that `main` can hold without overflow having occurred. -/
def NonNeg (c : Contribution) : Prop := 0 ≤ c.Commits ∧ c.Commits < 2 ^ 63

/-- Numeric value of a string of decimal digits. -/
def decimalValue (digits : Str) : Nat :=
  digits.foldl (fun acc c => acc * 10 + (c.toNat - '0'.toNat)) 0

/-- A search service that answers every query with its best-ranked match
only: the user of `a@x` when that email is queried, else the user of `f@x`
when that one is, else nobody. -/
def bestMatchApi : SearchApi := fun _ q =>
  if "a@x".toList ∈ q then some ⟨[⟨"alice".toList, [⟨"email".toList, "a@x".toList⟩]⟩]⟩
  else if "f@x".toList ∈ q then some ⟨[⟨"frank".toList, [⟨"email".toList, "f@x".toList⟩]⟩]⟩
  else some ⟨[]⟩

/-- A shortlog with six authors. -/
def sixAuthors : Str :=
  "6\tA <a@x>\n5\tF <f@x>\n4\tC <c@x>\n3\tD <d@x>\n2\tE <e@x>\n1\tB <b@x>".toList

/-- A shortlog in which the counts of `y@x` add up beyond 2^63. -/
def wrappedCounts : Str :=
  ("1\tX <x@x>\n6148914691236517206\tY <y@x>\n" ++
   "6148914691236517205\tY <y@x>\n6148914691236517206\tZ <z@x>").toList

/-- A search service that answers every queried email on its own: the
mapping obtained from any request is the restriction of one fixed
assignment `user` of logins to the emails of the request. -/
def AnswersEachEmail (api : SearchApi) (user : Str → Option Str) : Prop :=
  ∀ k q, ∃ rslt, api k q = some rslt ∧
    ∀ key, mapGet (collectLogins rslt) key = if key ∈ q then user key else none

/-- The service that knows one login per email and reports, for each queried
email with a known login, that user with the email as the matched
fragment. -/
def directoryApi (user : Str → Option Str) : SearchApi := fun _ q =>
  some ⟨q.filterMap fun e => (user e).map fun login => ⟨login, [⟨"email".toList, e⟩]⟩⟩

/-! ## Theorems -/

/-! ### Batches and the merge of their mappings (C7, C8, C9) -/

theorem slice_length {α : Type} (xs : List α) (lo hi : Nat) :
    (slice xs lo hi).length = min hi xs.length - lo := by
  simp [slice]

theorem getGitHubLoginNames1_nonempty (api : SearchApi) (sent : List (List Str))
    (emails : List Str) (h : emails ≠ []) :
    getGitHubLoginNames1 api sent emails =
      ((api sent.length emails).map collectLogins, sent ++ [emails]) := by
  have hl : ¬ emails.length ≤ 0 := by
    cases emails with
    | nil => exact absurd rfl h
    | cons a t => simp
  unfold getGitHubLoginNames1
  rw [if_neg hl]
  cases api sent.length emails <;> rfl

theorem loopSpec_shift (api : SearchApi) (emails : List Str) (i : Nat) :
    ∀ (js : List Nat) (result : GoMap Str) (sent : List (List Str)),
      loopSpec api emails i (js.map Nat.succ) result sent =
        loopSpec api emails (i + 5) js result sent := by
  intro js
  induction js with
  | nil => intro result sent; rfl
  | cons j js ih =>
    intro result sent
    simp only [List.map_cons, loopSpec]
    have e : i + 5 * j.succ = i + 5 + 5 * j := by omega
    rw [e]
    cases api sent.length (slice emails (i + 5 + 5 * j) (min (i + 5 + 5 * j + 5) emails.length)) with
    | none => exact ih _ _
    | some r => exact ih _ _

theorem loop_eq_spec (api : SearchApi) (emails : List Str) :
    ∀ (fuel i : Nat) (result : GoMap Str) (sent : List (List Str)),
      emails.length ≤ i + 5 * fuel →
      getGitHubLoginNamesLoop api emails fuel i result sent =
        loopSpec api emails i (List.range ((emails.length + 4 - i) / 5)) result sent := by
  intro fuel
  induction fuel with
  | zero =>
    intro i result sent h
    have h0 : (emails.length + 4 - i) / 5 = 0 := by omega
    rw [h0]; rfl
  | succ fuel ih =>
    intro i result sent h
    unfold getGitHubLoginNamesLoop
    by_cases hi : i < emails.length
    · rw [if_pos hi]
      have hn : (emails.length + 4 - i) / 5 = (emails.length + 4 - (i + 5)) / 5 + 1 := by omega
      rw [hn, List.range_succ_eq_map]
      simp only [loopSpec, loopSpec_shift]
      have hend : (if i + 5 > emails.length then emails.length else i + 5)
          = min (i + 5 * 0 + 5) emails.length := by
        split <;> omega
      have hb : slice emails i (if i + 5 > emails.length then emails.length else i + 5) ≠ [] := by
        intro hc
        have := congrArg List.length hc
        rw [slice_length] at this
        simp at this
        split at this <;> omega
      simp only [hend] at hb ⊢
      rw [getGitHubLoginNames1_nonempty api sent _ (by simpa using hb)]
      simp only [Nat.mul_zero, Nat.add_zero]
      cases hr : api sent.length (slice emails i (min (i + 5) emails.length)) with
      | none => simp only [Option.map_none']; exact ih (i + 5) _ _ (by omega)
      | some r => simp only [Option.map_some']; exact ih (i + 5) _ _ (by omega)
    · rw [if_neg hi]
      have h0 : (emails.length + 4 - i) / 5 = 0 := by omega
      rw [h0]; rfl

theorem loopSpec_sent (api : SearchApi) (emails : List Str) :
    ∀ (js : List Nat) (result : GoMap Str) (sent : List (List Str)),
      (loopSpec api emails 0 js result sent).2 = sent ++ js.map (batchOf emails) := by
  intro js
  induction js with
  | nil => intro result sent; simp [loopSpec]
  | cons j js ih =>
    intro result sent
    simp only [loopSpec, Nat.zero_add]
    cases api sent.length (slice emails (5 * j) (min (5 * j + 5) emails.length)) with
    | none => simp only []; rw [ih]; simp [batchOf]
    | some r => simp only []; rw [ih]; simp [batchOf]

theorem loopSpec_result (api : SearchApi) (emails : List Str) :
    ∀ (n a : Nat) (result : GoMap Str) (sent : List (List Str)), sent.length = a →
      (loopSpec api emails 0 (List.range' a n) result sent).1 =
        ((List.range' a n).filterMap (batchOutcome api emails)).foldl mergeInto result := by
  intro n
  induction n with
  | zero => intro a result sent _; simp [loopSpec]
  | succ n ih =>
    intro a result sent ha
    simp only [List.range'_succ, loopSpec, Nat.zero_add, List.filterMap_cons, batchOutcome]
    rw [ha]
    cases hr : api a (slice emails (5 * a) (min (5 * a + 5) emails.length)) with
    | none =>
      simp only [batchOf, hr, Option.map_none']
      exact ih (a + 1) _ _ (by simp [ha])
    | some r =>
      simp only [batchOf, hr, Option.map_some', List.foldl_cons]
      exact ih (a + 1) _ _ (by simp [ha])

theorem getGitHubLoginNames_eq (api : SearchApi) (emails : List Str) :
    getGitHubLoginNames api emails =
      (((List.range ((emails.length + 4) / 5)).filterMap (batchOutcome api emails)).foldl
          mergeInto [],
        (List.range ((emails.length + 4) / 5)).map (batchOf emails)) := by
  unfold getGitHubLoginNames
  rw [loop_eq_spec api emails emails.length 0 [] [] (by omega)]
  apply Prod.ext
  · simp only [Nat.sub_zero]
    rw [List.range_eq_range']
    exact loopSpec_result api emails _ 0 [] [] rfl
  · simp only [Nat.sub_zero]
    rw [loopSpec_sent]; rfl

theorem batchOf_eq (emails : List Str) (k : Nat) :
    batchOf emails k = (emails.take (5 * k + 5)).drop (5 * k) := by
  unfold batchOf slice
  congr 1
  rcases Nat.le_total (5 * k + 5) emails.length with h | h
  · rw [Nat.min_eq_left h]
  · rw [Nat.min_eq_right h, List.take_of_length_le h, List.take_of_length_le (Nat.le_refl _)]

theorem batchOf_length (emails : List Str) (k : Nat) :
    (batchOf emails k).length = min (5 * k + 5) emails.length - 5 * k := by
  unfold batchOf
  rw [slice_length]
  congr 1
  omega

theorem batches_flatten (emails : List Str) :
    ∀ n, ((List.range n).map (batchOf emails)).flatten = emails.take (5 * n) := by
  intro n
  induction n with
  | zero => simp
  | succ n ih =>
    rw [List.range_succ, List.map_append, List.flatten_append, ih]
    simp only [List.map_cons, List.map_nil, List.flatten_cons, List.flatten_nil,
      List.append_nil, batchOf_eq]
    have h1 : emails.take (5 * n) = (emails.take (5 * n + 5)).take (5 * n) := by
      rw [List.take_take]; congr 1; omega
    rw [h1, List.take_append_drop]
    congr 1

theorem mapGet_mapSet {V : Type} (m : GoMap V) (k k1 : Str) (v : V) :
    mapGet (mapSet m k v) k1 = if k = k1 then some v else mapGet m k1 := by
  induction m with
  | nil => simp [mapSet, mapGet]
  | cons p m ih =>
    obtain ⟨k2, v2⟩ := p
    simp only [mapSet]
    by_cases h : k2 = k
    · subst h
      simp only [if_true, mapGet]
      by_cases h2 : k2 = k1 <;> simp [h2]
    · simp only [if_neg h, mapGet, ih]
      by_cases h2 : k2 = k1
      · subst h2
        simp [Ne.symm h]
      · simp [h2]

theorem mapGet_mergeInto (r : GoMap Str) :
    ∀ (result : GoMap Str) (key : Str),
      mapGet (mergeInto result r) key =
        match mapGet result key with
        | some v => some v
        | none => mapGet r key := by
  induction r with
  | nil => intro result key; simp only [mergeInto, List.foldl_nil, mapGet]; cases mapGet result key <;> rfl
  | cons p r ih =>
    intro result key
    obtain ⟨k, v⟩ := p
    have hstep : mergeInto result ((k, v) :: r) =
        mergeInto (match mapGet result k with
          | some _ => result
          | none => mapSet result k v) r := rfl
    rw [hstep, ih]
    cases hk : mapGet result k with
    | some w =>
      simp only [mapGet]
      cases hkey : mapGet result key with
      | some u => rfl
      | none =>
        have : k ≠ key := by intro e; rw [e] at hk; rw [hk] at hkey; cases hkey
        simp [this]
    | none =>
      simp only [mapGet_mapSet, mapGet]
      by_cases e : k = key
      · subst e; simp [hk]
      · simp [e]

theorem mapGet_foldl_mergeInto (rs : List (GoMap Str)) :
    ∀ (result : GoMap Str) (key : Str),
      mapGet (rs.foldl mergeInto result) key =
        match mapGet result key with
        | some v => some v
        | none => rs.findSome? fun r => mapGet r key := by
  induction rs with
  | nil => intro result key; simp only [List.foldl_nil, List.findSome?_nil]; cases mapGet result key <;> rfl
  | cons r rs ih =>
    intro result key
    rw [List.foldl_cons, ih, mapGet_mergeInto, List.findSome?_cons]
    cases mapGet result key with
    | some v => rfl
    | none => cases mapGet r key <;> rfl

theorem matches_fold_sound (login : Str) (Q : Str → Str → Prop) :
    ∀ (ms : List GitHubUserMatch) (r : GoMap Str),
      (∀ k v, mapGet r k = some v → Q k v) → (∀ m ∈ ms, Q m.Fragment login) →
      ∀ k v, mapGet (ms.foldl (fun r m =>
          match mapGet r m.Fragment with
          | some _ => r
          | none => mapSet r m.Fragment login) r) k = some v → Q k v := by
  intro ms
  induction ms with
  | nil => intro r hr _ k v h; exact hr k v h
  | cons m ms ih =>
    intro r hr hms
    rw [List.foldl_cons]
    apply ih
    · intro k v h
      cases hm : mapGet r m.Fragment with
      | some w => rw [hm] at h; exact hr k v h
      | none =>
        rw [hm] at h
        simp only [mapGet_mapSet] at h
        by_cases e : m.Fragment = k
        · rw [if_pos e] at h
          cases h
          rw [← e]
          exact hms m (List.mem_cons_self _ _)
        · rw [if_neg e] at h
          exact hr k v h
    · intro m1 hm1
      exact hms m1 (List.mem_cons_of_mem _ hm1)

theorem items_fold_sound (Q : Str → Str → Prop) :
    ∀ (us : List GitHubUser) (r : GoMap Str),
      (∀ k v, mapGet r k = some v → Q k v) →
      (∀ u ∈ us, ∀ m ∈ u.Matches, Q m.Fragment u.Login) →
      ∀ k v, mapGet (us.foldl (fun r u =>
          u.Matches.foldl (fun r m =>
            match mapGet r m.Fragment with
            | some _ => r
            | none => mapSet r m.Fragment u.Login) r) r) k = some v → Q k v := by
  intro us
  induction us with
  | nil => intro r hr _ k v h; exact hr k v h
  | cons u us ih =>
    intro r hr hus
    rw [List.foldl_cons]
    apply ih
    · exact matches_fold_sound u.Login Q u.Matches r hr (hus u (List.mem_cons_self _ _))
    · intro u1 hu1
      exact hus u1 (List.mem_cons_of_mem _ hu1)

theorem collectLogins_sound (rslt : GitHubUserSearchResponse) (key login : Str)
    (h : mapGet (collectLogins rslt) key = some login) :
    ∃ u ∈ rslt.Items, ∃ m ∈ u.Matches, m.Fragment = key ∧ u.Login = login := by
  refine items_fold_sound
    (fun k v => ∃ u ∈ rslt.Items, ∃ m ∈ u.Matches, m.Fragment = k ∧ u.Login = v)
    rslt.Items [] ?_ ?_ key login h
  · intro k v hk; simp [mapGet] at hk
  · intro u hu m hm; exact ⟨u, hu, m, hm, rfl, rfl⟩

theorem matches_fold_keeps (login : Str) :
    ∀ (ms : List GitHubUserMatch) (r : GoMap Str) (k : Str),
      (mapGet r k).isSome ∨ (∃ m ∈ ms, m.Fragment = k) →
      (mapGet (ms.foldl (fun r m =>
          match mapGet r m.Fragment with
          | some _ => r
          | none => mapSet r m.Fragment login) r) k).isSome := by
  intro ms
  induction ms with
  | nil =>
    intro r k h
    rcases h with h | ⟨m, hm, _⟩
    · exact h
    · cases hm
  | cons m ms ih =>
    intro r k h
    rw [List.foldl_cons]
    apply ih
    by_cases e : m.Fragment = k
    · left
      cases hm : mapGet r m.Fragment with
      | some w => simp only []; rw [← e, hm]; rfl
      | none => simp only [mapGet_mapSet, if_pos e]; rfl
    · rcases h with h | ⟨m1, hm1, hk⟩
      · left
        cases hm : mapGet r m.Fragment with
        | some w => exact h
        | none => simp only [mapGet_mapSet, if_neg e]; exact h
      · rcases List.mem_cons.1 hm1 with h1 | h1
        · subst h1; exact absurd hk e
        · right; exact ⟨m1, h1, hk⟩

theorem items_fold_keeps :
    ∀ (us : List GitHubUser) (r : GoMap Str) (k : Str),
      (mapGet r k).isSome ∨ (∃ u ∈ us, ∃ m ∈ u.Matches, m.Fragment = k) →
      (mapGet (us.foldl (fun r u =>
          u.Matches.foldl (fun r m =>
            match mapGet r m.Fragment with
            | some _ => r
            | none => mapSet r m.Fragment u.Login) r) r) k).isSome := by
  intro us
  induction us with
  | nil =>
    intro r k h
    rcases h with h | ⟨u, hu, _⟩
    · exact h
    · cases hu
  | cons u us ih =>
    intro r k h
    rw [List.foldl_cons]
    apply ih
    rcases h with h | ⟨u1, hu1, m, hm, hk⟩
    · left; exact matches_fold_keeps u.Login u.Matches r k (Or.inl h)
    · rcases List.mem_cons.1 hu1 with h1 | h1
      · subst h1; left; exact matches_fold_keeps u1.Login u1.Matches r k (Or.inr ⟨m, hm, hk⟩)
      · right; exact ⟨u1, h1, m, hm, hk⟩

theorem collectLogins_complete (rslt : GitHubUserSearchResponse) (u : GitHubUser)
    (m : GitHubUserMatch) (hu : u ∈ rslt.Items) (hm : m ∈ u.Matches) :
    (mapGet (collectLogins rslt) m.Fragment).isSome :=
  items_fold_keeps rslt.Items [] m.Fragment (Or.inr ⟨u, hu, m, hm, rfl⟩)

theorem getGitHubLoginNames_lookup (api : SearchApi) (emails : List Str) (key : Str) :
    mapGet (getGitHubLoginNames api emails).1 key =
      ((List.range ((emails.length + 4) / 5)).filterMap (batchOutcome api emails)).findSome?
        fun r => mapGet r key := by
  rw [getGitHubLoginNames_eq, mapGet_foldl_mergeInto]
  rfl

/-- C7 (enrichment batching): for `n` emails `getGitHubLoginNames` requests
exactly `ceil(n/5) = (n+4)/5` batches, in order; batch `k` is
`emails[5k : min(5k+5, n)]`; every batch is non-empty, every batch but the
last has 5 emails, the batches concatenated give back the input; 12 emails
give batches of sizes 5, 5, 2 and no email gives no batch. -/
theorem getGitHubLoginNames_batches (api : SearchApi) (emails : List Str) :
    (getGitHubLoginNames api emails).2 =
        (List.range ((emails.length + 4) / 5)).map
          (fun k => slice emails (5 * k) (min (5 * k + 5) emails.length)) ∧
    (getGitHubLoginNames api emails).2.length = (emails.length + 4) / 5 ∧
    (∀ b ∈ (getGitHubLoginNames api emails).2, b ≠ []) ∧
    (∀ k, k + 1 < (getGitHubLoginNames api emails).2.length →
      ((getGitHubLoginNames api emails).2.getD k []).length = 5) ∧
    (getGitHubLoginNames api emails).2.flatten = emails ∧
    (emails.length = 12 → (getGitHubLoginNames api emails).2.map List.length = [5, 5, 2]) ∧
    (emails.length = 0 → (getGitHubLoginNames api emails).2 = []) := by
  have hs : (getGitHubLoginNames api emails).2 =
      (List.range ((emails.length + 4) / 5)).map (batchOf emails) := by
    rw [getGitHubLoginNames_eq]
  refine ⟨hs, ?_, ?_, ?_, ?_, ?_, ?_⟩
  · rw [hs]; simp
  · rw [hs]
    intro b hb
    rcases List.mem_map.1 hb with ⟨k, hk, rfl⟩
    have hk1 := List.mem_range.1 hk
    intro hc
    have hl := congrArg List.length hc
    rw [batchOf_length] at hl
    simp only [List.length_nil] at hl
    omega
  · rw [hs]
    intro k hk
    simp only [List.length_map, List.length_range] at hk
    have hk2 : k < (emails.length + 4) / 5 := by omega
    rw [List.getD_eq_getElem?_getD, List.getElem?_map, List.getElem?_range hk2]
    simp only [Option.map_some', Option.getD_some]
    rw [batchOf_length]
    omega
  · rw [hs, batches_flatten]
    exact List.take_of_length_le (by omega)
  · intro h12
    rw [hs, h12]
    simp only [List.map_map]
    have hr : List.range ((12 + 4) / 5) = [0, 1, 2] := by decide
    rw [hr]
    simp only [List.map_cons, List.map_nil, Function.comp, batchOf_length, h12]
    rfl
  · intro h0
    rw [hs, h0]
    rfl

/-- Twelve one-letter emails go out as batches of 5, 5 and 2. -/
theorem getGitHubLoginNames_batches_witness :
    ((List.range 12).map fun i => [Char.ofNat (97 + i)]).length = 12 ∧
    (getGitHubLoginNames (fun _ _ => none)
      ((List.range 12).map fun i => [Char.ofNat (97 + i)])).2.map List.length = [5, 5, 2] :=
  ⟨by decide,
   (getGitHubLoginNames_batches (fun _ _ => none)
      ((List.range 12).map fun i => [Char.ofNat (97 + i)])).2.2.2.2.2.1 (by decide)⟩

/-- C9 (batch failures are tolerated): whatever batches fail,
`getGitHubLoginNames` returns a mapping: the mappings of the successful
batches merged in batch order, a key keeping the value of the first batch
that has it; a failed batch adds nothing, and every batch is requested, also
after a failed one. -/
theorem getGitHubLoginNames_tolerates_failures (api : SearchApi) (emails : List Str) :
    (getGitHubLoginNames api emails).1 =
      (((List.range ((emails.length + 4) / 5)).map fun k =>
          (api k (slice emails (5 * k) (min (5 * k + 5) emails.length))).map
            collectLogins).filterMap id).foldl mergeInto [] ∧
    (∀ key, mapGet (getGitHubLoginNames api emails).1 key =
      firstKeyWins
        (((List.range ((emails.length + 4) / 5)).map fun k =>
            (api k (slice emails (5 * k) (min (5 * k + 5) emails.length))).map
              collectLogins).filterMap id)
        key) ∧
    (getGitHubLoginNames api emails).2 =
      (List.range ((emails.length + 4) / 5)).map
        (fun k => slice emails (5 * k) (min (5 * k + 5) emails.length)) := by
  refine ⟨?_, ?_, ?_⟩
  · rw [getGitHubLoginNames_eq, List.filterMap_map]
    rfl
  · intro key
    rw [getGitHubLoginNames_lookup, List.filterMap_map]
    rfl
  · rw [getGitHubLoginNames_eq]; rfl

/-- C8, as stated, fails: a response to the query for `a@x` that carries the
fragment `other@y` puts the key `other@y`, which is not a queried email,
into the returned mapping. -/
theorem getGitHubLoginNames_key_not_queried :
    mapGet (getGitHubLoginNames
        (fun _ _ => some ⟨[⟨"octocat".toList, [⟨"email".toList, "other@y".toList⟩]⟩]⟩)
        ["a@x".toList]).1 "other@y".toList = some "octocat".toList ∧
    "other@y".toList ∉ ["a@x".toList] := by
  decide

/-- C8 (amended): every key of the mapping returned by `getGitHubLoginNames`
is a fragment of a text match of some user in the response of a successful
batch, and its value is that user's login; conversely every such fragment is
a key, whether or not it equals a queried email.  The restriction to emails
is made by `main`, which reads the mapping only at `c.Email`: an entry is
changed by `setLogin` only when a fragment equals its email, and then only
in its `Login`. -/
theorem getGitHubLoginNames_keys_are_fragments (api : SearchApi) (emails : List Str) :
    (∀ key login, mapGet (getGitHubLoginNames api emails).1 key = some login →
      ∃ k, k < (emails.length + 4) / 5 ∧
      ∃ rslt, api k (slice emails (5 * k) (min (5 * k + 5) emails.length)) = some rslt ∧
      ∃ u ∈ rslt.Items, ∃ m ∈ u.Matches, m.Fragment = key ∧ u.Login = login) ∧
    (∀ k rslt u m, k < (emails.length + 4) / 5 →
      api k (slice emails (5 * k) (min (5 * k + 5) emails.length)) = some rslt →
      u ∈ rslt.Items → m ∈ u.Matches →
      (mapGet (getGitHubLoginNames api emails).1 m.Fragment).isSome = true) ∧
    (∀ c : Contribution, setLogin (getGitHubLoginNames api emails).1 c ≠ c →
      ∃ k, k < (emails.length + 4) / 5 ∧
      ∃ rslt, api k (slice emails (5 * k) (min (5 * k + 5) emails.length)) = some rslt ∧
      ∃ u ∈ rslt.Items, ∃ m ∈ u.Matches, m.Fragment = c.Email ∧
        setLogin (getGitHubLoginNames api emails).1 c = { c with Login := u.Login }) := by
  have key_sound : ∀ key login, mapGet (getGitHubLoginNames api emails).1 key = some login →
      ∃ k, k < (emails.length + 4) / 5 ∧
      ∃ rslt, api k (slice emails (5 * k) (min (5 * k + 5) emails.length)) = some rslt ∧
      ∃ u ∈ rslt.Items, ∃ m ∈ u.Matches, m.Fragment = key ∧ u.Login = login := by
    intro key login h
    rw [getGitHubLoginNames_lookup] at h
    obtain ⟨r, hr, hk⟩ := List.exists_of_findSome?_eq_some h
    obtain ⟨k, hkr, hout⟩ := List.mem_filterMap.1 hr
    have hk1 := List.mem_range.1 hkr
    unfold batchOutcome batchOf at hout
    cases hapi : api k (slice emails (5 * k) (min (5 * k + 5) emails.length)) with
    | none => rw [hapi] at hout; cases hout
    | some rslt =>
      rw [hapi] at hout
      simp only [Option.map_some', Option.some.injEq] at hout
      subst hout
      exact ⟨k, hk1, rslt, hapi, collectLogins_sound rslt key login hk⟩
  refine ⟨key_sound, ?_, ?_⟩
  · intro k rslt u m hk hapi hu hm
    rw [getGitHubLoginNames_lookup]
    have hmem : collectLogins rslt ∈
        (List.range ((emails.length + 4) / 5)).filterMap (batchOutcome api emails) := by
      refine List.mem_filterMap.2 ⟨k, List.mem_range.2 hk, ?_⟩
      unfold batchOutcome batchOf
      rw [hapi]; rfl
    cases hf : ((List.range ((emails.length + 4) / 5)).filterMap
        (batchOutcome api emails)).findSome? fun r => mapGet r m.Fragment with
    | some v => rfl
    | none =>
      have hnone := List.findSome?_eq_none_iff.1 hf _ hmem
      have hsome := collectLogins_complete rslt u m hu hm
      rw [hnone] at hsome
      cases hsome
  · intro c hc
    unfold setLogin at hc ⊢
    cases hg : mapGet (getGitHubLoginNames api emails).1 c.Email with
    | none => rw [hg] at hc; exact absurd rfl hc
    | some login =>
      obtain ⟨k, hk, rslt, hapi, u, hu, m, hm, hfrag, hlogin⟩ := key_sound _ _ hg
      exact ⟨k, hk, rslt, hapi, u, hu, m, hm, hfrag, by rw [hlogin]⟩

/-- An honest response for one queried email: its key is the fragment of
the user found. -/
theorem getGitHubLoginNames_keys_are_fragments_witness :
    mapGet (getGitHubLoginNames
        (fun _ q => some ⟨q.map fun e => ⟨"octocat".toList, [⟨"email".toList, e⟩]⟩⟩)
        ["a@x".toList]).1 "a@x".toList = some "octocat".toList ∧
    ∃ k, k < (["a@x".toList].length + 4) / 5 ∧
      ∃ rslt, (fun (_ : Nat) (q : List Str) => some (GitHubUserSearchResponse.mk
          (q.map fun e => ⟨"octocat".toList, [⟨"email".toList, e⟩]⟩))) k
          (slice ["a@x".toList] (5 * k) (min (5 * k + 5) ["a@x".toList].length)) = some rslt ∧
      ∃ u ∈ rslt.Items, ∃ m ∈ u.Matches, m.Fragment = "a@x".toList ∧
        u.Login = "octocat".toList :=
  ⟨by decide,
   (getGitHubLoginNames_keys_are_fragments
      (fun _ q => some ⟨q.map fun e => ⟨"octocat".toList, [⟨"email".toList, e⟩]⟩⟩)
      ["a@x".toList]).1 "a@x".toList "octocat".toList (by decide)⟩

/-! ### Facts about the matcher and the parser -/

theorem getCap_setCap_ne (i j : Nat) (t : Str) (h : j ≠ i) :
    ∀ caps : Caps, getCap j (setCap i t caps) = getCap j caps := by
  intro caps
  induction caps with
  | nil => simp [setCap, getCap, Ne.symm h]
  | cons p caps ih =>
    obtain ⟨l, u⟩ := p
    simp only [setCap]
    by_cases hl : l = i
    · subst hl
      simp [getCap, Ne.symm h]
    · simp only [if_neg hl, getCap, ih]

theorem getCap_setCap_eq (i : Nat) (t : Str) :
    ∀ caps : Caps, getCap i (setCap i t caps) = t := by
  intro caps
  induction caps with
  | nil => simp [setCap, getCap]
  | cons p caps ih =>
    obtain ⟨l, u⟩ := p
    simp only [setCap]
    by_cases hl : l = i
    · subst hl
      simp [getCap]
    · simp only [if_neg hl, getCap, ih]

theorem starAtom_some (a : Atom) (k : MState → Option Caps) (caps : Caps) (v : Caps) :
    ∀ (rest : Str) (pos : Nat), starAtom a k pos rest caps = some v →
      ∃ pos1 rest1, k ⟨pos1, rest1, caps⟩ = some v := by
  intro rest
  induction rest with
  | nil => intro pos h; exact ⟨pos, [], h⟩
  | cons c cs ih =>
    intro pos h
    unfold starAtom at h
    by_cases ht : a.test c = true
    · rw [if_pos ht] at h
      cases hs : starAtom a k (pos + 1) cs caps with
      | some r =>
        rw [hs] at h
        simp only [Option.some.injEq] at h
        subst h
        exact ih _ hs
      | none =>
        rw [hs] at h
        exact ⟨pos, c :: cs, h⟩
    · rw [if_neg ht] at h
      exact ⟨pos, c :: cs, h⟩

/-- Frame property of the matcher: an accepted run hands the continuation
a state in which the groups outside the expression are untouched. -/
theorem run_frame (r : Re) :
    ∀ (s : MState) (k : MState → Option Caps) (v : Caps), r.run s k = some v →
      ∃ s1, k s1 = some v ∧ ∀ i, i ∉ r.groups → getCap i s1.caps = getCap i s.caps := by
  induction r with
  | empty => intro s k v h; exact ⟨s, h, fun _ _ => rfl⟩
  | bol =>
    intro s k v h
    simp only [Re.run] at h
    split at h
    · exact ⟨s, h, fun _ _ => rfl⟩
    · cases h
  | eol =>
    intro s k v h
    simp only [Re.run] at h
    split at h
    · exact ⟨s, h, fun _ _ => rfl⟩
    · cases h
  | one a =>
    intro s k v h
    simp only [Re.run] at h
    split at h
    · cases h
    · split at h
      · exact ⟨_, h, fun _ _ => rfl⟩
      · cases h
  | star a =>
    intro s k v h
    simp only [Re.run] at h
    obtain ⟨p1, r1, h1⟩ := starAtom_some a k s.caps v _ _ h
    exact ⟨_, h1, fun _ _ => rfl⟩
  | plus a =>
    intro s k v h
    simp only [Re.run] at h
    split at h
    · cases h
    · split at h
      · obtain ⟨p1, r1, h1⟩ := starAtom_some a k s.caps v _ _ h
        exact ⟨_, h1, fun _ _ => rfl⟩
      · cases h
  | group i body ih =>
    intro s k v h
    simp only [Re.run] at h
    obtain ⟨s1, h1, hf⟩ := ih s _ v h
    refine ⟨_, h1, ?_⟩
    intro j hj
    simp only [Re.groups, List.mem_cons, not_or] at hj
    simp only []
    rw [getCap_setCap_ne i j _ hj.1]
    exact hf j hj.2
  | seq r1 r2 ih1 ih2 =>
    intro s k v h
    simp only [Re.run] at h
    obtain ⟨s1, h1, hf1⟩ := ih1 s _ v h
    obtain ⟨s2, h2, hf2⟩ := ih2 s1 k v h1
    refine ⟨s2, h2, ?_⟩
    intro j hj
    simp only [Re.groups, List.mem_append, not_or] at hj
    rw [hf2 j hj.2, hf1 j hj.1]

theorem findFrom_some (re : Re) (v : Caps) :
    ∀ (rest : Str) (pos : Nat), findFrom re pos rest = some v →
      ∃ pos1 rest1, (Re.group 0 re).run ⟨pos1, rest1, []⟩ (fun s => some s.caps) = some v := by
  intro rest
  induction rest with
  | nil => intro pos h; exact ⟨pos, [], h⟩
  | cons c cs ih =>
    intro pos h
    unfold findFrom at h
    cases hs : (Re.group 0 re).run ⟨pos, c :: cs, []⟩ (fun s => some s.caps) with
    | some r =>
      rw [hs] at h
      simp only [Option.some.injEq] at h
      subst h
      exact ⟨pos, c :: cs, hs⟩
    | none =>
      rw [hs] at h
      exact ih _ h

theorem group1_empty_frame (r : Re) (hr : 1 ∉ r.groups) (s0 : MState) (v : Caps)
    (h : (Re.group 0 (.seq .bol (.seq (.group 1 .empty) r))).run s0 (fun s => some s.caps)
      = some v) : getCap 1 v = [] := by
  simp only [Re.run] at h
  split at h
  · simp only [Nat.sub_self, List.take_zero] at h
    obtain ⟨s1, h1, hf1⟩ := run_frame r _ _ _ h
    simp only [Option.some.injEq] at h1
    subst h1
    rw [getCap_setCap_ne 0 1 _ (by decide)]
    rw [hf1 1 hr]
    simp only []
    exact getCap_setCap_eq 1 [] s0.caps
  · cases h

/-- The first group of `regexMailmap` is `()`: its text is always empty. -/
theorem regexMailmap_group1 (line : Str) (m : List Str)
    (h : findStringSubmatch regexMailmap line = some m) : m.getD 1 [] = [] := by
  unfold findStringSubmatch at h
  cases hf : findFrom regexMailmap 0 line with
  | none => rw [hf] at h; cases h
  | some caps =>
    rw [hf] at h
    simp only [Option.some.injEq] at h
    subst h
    obtain ⟨pos1, rest1, hrun⟩ := findFrom_some _ _ _ _ hf
    have hn : regexMailmap.numSubexp + 1 = 4 := rfl
    rw [hn]
    have hr : List.range 4 = [0, 1, 2, 3] := by decide
    rw [hr]
    simp only [List.map_cons, List.getD_cons_succ, List.getD_cons_zero]
    exact group1_empty_frame _ (by decide) _ _ hrun

/-- A record parsed from a mailmap line carries the historical count of its
email, or 0 when the table has none. -/
theorem parse_mailmap_commits (line : Str) (c : Contribution)
    (h : parseContribution regexMailmap line = some c) :
    c.Commits = (initial c.Email).getD 0 := by
  unfold parseContribution at h
  simp only [] at h
  split at h
  · cases h
  · cases hm : findStringSubmatch regexMailmap (trimSpace line) with
    | none => rw [hm] at h; cases h
    | some m =>
      rw [hm] at h
      simp only [] at h
      have h1 := regexMailmap_group1 _ _ hm
      split at h
      · cases h
      · split at h
        · cases h
        · rw [h1] at h
          simp only [ne_eq, not_true_eq_false, if_false] at h
          cases hi : initial (m.getD 3 []) with
          | none =>
            rw [hi] at h
            simp only [Option.some.injEq] at h
            subst h
            show (0 : Int) = (initial (m.getD 3 [])).getD 0
            rw [hi]; rfl
          | some i =>
            rw [hi] at h
            simp only [Option.some.injEq] at h
            subst h
            show i = (initial (m.getD 3 [])).getD 0
            rw [hi]; rfl

theorem parse_email_ne_bot (regex : Re) (line : Str) (c : Contribution)
    (h : parseContribution regex line = some c) : c.Email ≠ bot := by
  unfold parseContribution at h
  simp only [] at h
  split at h
  · cases h
  · cases hm : findStringSubmatch regex (trimSpace line) with
    | none => rw [hm] at h; cases h
    | some m =>
      rw [hm] at h
      simp only [] at h
      split at h
      · cases h
      · split at h
        · cases h
        · rename_i hb
          split at h
          · split at h
            · cases h
            · simp only [Option.some.injEq] at h; subst h; exact hb
          · split at h <;> (simp only [Option.some.injEq] at h; subst h; exact hb)

theorem atoi_inRange (s : Str) (n : Int) (h : atoi s = some n) : InRange n := by
  unfold atoi at h
  unfold InRange
  split at h
  · split at h
    · split at h
      · simp only [Option.some.injEq] at h; subst h; omega
      · cases h
    · cases h
  · split at h
    · split at h
      · simp only [Option.some.injEq] at h; subst h; omega
      · cases h
    · cases h
  · split at h
    · split at h
      · simp only [Option.some.injEq] at h; subst h; omega
      · cases h
    · cases h

theorem initial_inRange (e : Str) (i : Int) (h : initial e = some i) : 0 < i ∧ i < 2 ^ 63 := by
  unfold initial at h
  repeat' split at h
  all_goals cases h
  all_goals norm_num

theorem parse_inRange (regex : Re) (line : Str) (c : Contribution)
    (h : parseContribution regex line = some c) : InRange c.Commits := by
  unfold parseContribution at h
  simp only [] at h
  split at h
  · cases h
  · cases hm : findStringSubmatch regex (trimSpace line) with
    | none => rw [hm] at h; cases h
    | some m =>
      rw [hm] at h
      simp only [] at h
      split at h
      · cases h
      · split at h
        · cases h
        · split at h
          · cases ha : atoi (m.getD 1 []) with
            | none => rw [ha] at h; cases h
            | some n =>
              rw [ha] at h
              simp only [Option.some.injEq] at h; subst h
              exact atoi_inRange _ _ ha
          · cases hi : initial (m.getD 3 []) with
            | none =>
              rw [hi] at h
              simp only [Option.some.injEq] at h; subst h
              show InRange 0
              unfold InRange
              constructor <;> norm_num
            | some i =>
              rw [hi] at h
              simp only [Option.some.injEq] at h; subst h
              have hr := initial_inRange _ _ hi
              show InRange i
              unfold InRange
              exact ⟨by have := hr.1; omega, hr.2⟩

/-! ### The two passes of the aggregation (C1, C2, C5, C6) -/

theorem addLookup_cons (e : Str) (r : Contribution) (rs : List Contribution)
    (o : Option Contribution) :
    addLookup e (r :: rs) o =
      addLookup e rs
        (if r.Email = e then
          match o with
          | some c => some { c with Commits := wrapInt (c.Commits + r.Commits) }
          | none => some r
        else o) := rfl

theorem mailmapStep_eq (m : GoMap Contribution) (line : Str) :
    mailmapStep m line =
      match surviving regexMailmap line with
      | some c => seedStep m c
      | none => m := by
  unfold mailmapStep surviving seedStep
  cases parseContribution regexMailmap line with
  | none => rfl
  | some c =>
    simp only []
    split <;> rfl

theorem logStep_eq (m : GoMap Contribution) (line : Str) :
    logStep m line =
      match surviving regexContribution line with
      | some c => addStep m c
      | none => m := by
  unfold logStep surviving addStep
  cases parseContribution regexContribution line with
  | none => rfl
  | some c =>
    simp only []
    split <;> rfl

theorem foldl_steps {α β γ : Type} (f : α → β → α) (g : α → γ → α) (p : β → Option γ)
    (h : ∀ a b, f a b = match p b with | some c => g a c | none => a) :
    ∀ (bs : List β) (a : α), bs.foldl f a = (bs.filterMap p).foldl g a := by
  intro bs
  induction bs with
  | nil => intro a; rfl
  | cons b bs ih =>
    intro a
    rw [List.foldl_cons, ih, h, List.filterMap_cons]
    cases p b <;> rfl

theorem aggregate_eq (mailmap list : Str) :
    aggregate mailmap list =
      (survivors regexContribution list).foldl addStep
        ((survivors regexMailmap mailmap).foldl seedStep []) := by
  unfold aggregate survivors
  rw [foldl_steps logStep addStep (surviving regexContribution)
      (fun a b => by rw [logStep_eq]; cases surviving regexContribution b <;> rfl),
    foldl_steps mailmapStep seedStep (surviving regexMailmap)
      (fun a b => by rw [mailmapStep_eq]; cases surviving regexMailmap b <;> rfl)]

theorem mapGet_seed_fold (e : Str) :
    ∀ (rs : List Contribution) (m : GoMap Contribution),
      mapGet (rs.foldl seedStep m) e =
        match mapGet m e with
        | some c => some c
        | none => rs.find? fun r => decide (r.Email = e) := by
  intro rs
  induction rs with
  | nil => intro m; simp only [List.foldl_nil, List.find?_nil]; cases mapGet m e <;> rfl
  | cons r rs ih =>
    intro m
    rw [List.foldl_cons, ih, List.find?_cons]
    unfold seedStep
    cases hr : mapGet m r.Email with
    | some c0 =>
      simp only []
      cases hm : mapGet m e with
      | some c => rfl
      | none =>
        have hne : r.Email ≠ e := by
          intro he; rw [he] at hr; rw [hr] at hm; cases hm
        simp [hne]
    | none =>
      simp only [mapGet_mapSet]
      by_cases he : r.Email = e
      · subst he
        simp [hr]
      · simp only [if_neg he, decide_eq_false he]

theorem mapGet_add_fold (e : Str) :
    ∀ (rs : List Contribution) (m : GoMap Contribution),
      mapGet (rs.foldl addStep m) e = addLookup e rs (mapGet m e) := by
  intro rs
  induction rs with
  | nil => intro m; rfl
  | cons r rs ih =>
    intro m
    rw [List.foldl_cons, ih, addLookup_cons]
    congr 1
    unfold addStep
    by_cases he : r.Email = e
    · subst he
      rw [if_pos rfl]
      cases hr : mapGet m r.Email with
      | some c0 => simp only [mapGet_mapSet, if_true]
      | none => simp only [mapGet_mapSet, if_true]
    · rw [if_neg he]
      cases hr : mapGet m r.Email with
      | some c0 => simp only [mapGet_mapSet, if_neg he]
      | none => simp only [mapGet_mapSet, if_neg he]

theorem wrapInt_of_inRange (x : Int) (h : InRange x) : wrapInt x = x := by
  unfold InRange at h
  unfold wrapInt
  omega

theorem wrapInt_add_wrapInt (x y : Int) : wrapInt (wrapInt x + y) = wrapInt (x + y) := by
  unfold wrapInt
  omega

theorem wrapInt_inRange (x : Int) : InRange (wrapInt x) := by
  unfold InRange wrapInt
  omega

theorem countFor_cons (e : Str) (r : Contribution) (rs : List Contribution) :
    countFor e (r :: rs) = (if r.Email = e then r.Commits else 0) + countFor e rs := by
  unfold countFor
  by_cases he : r.Email = e
  · simp [List.filter_cons, he]
  · simp [List.filter_cons, he]

theorem addLookup_some (e : Str) :
    ∀ (rs : List Contribution) (c : Contribution) (x : Int),
      addLookup e rs (some { c with Commits := wrapInt x }) =
        some { c with Commits := wrapInt (x + countFor e rs) } := by
  intro rs
  induction rs with
  | nil => intro c x; simp [addLookup, countFor]
  | cons r rs ih =>
    intro c x
    rw [addLookup_cons, countFor_cons]
    by_cases he : r.Email = e
    · rw [if_pos he, if_pos he]
      simp only []
      rw [wrapInt_add_wrapInt]
      have := ih c (x + r.Commits)
      simp only [] at this
      rw [this, Int.add_assoc]
    · rw [if_neg he, if_neg he]
      have := ih c x
      simp only [] at this
      rw [this]
      simp

theorem addLookup_none (e : Str) :
    ∀ (rs : List Contribution), (∀ r ∈ rs, InRange r.Commits) →
      addLookup e rs none =
        match rs.find? fun r => decide (r.Email = e) with
        | some r => some { r with Commits := wrapInt (countFor e rs) }
        | none => none := by
  intro rs
  induction rs with
  | nil => intro _; rfl
  | cons r rs ih =>
    intro hrs
    rw [addLookup_cons, List.find?_cons, countFor_cons]
    by_cases he : r.Email = e
    · rw [if_pos he, if_pos he]
      simp only [decide_eq_true he]
      have hr := wrapInt_of_inRange _ (hrs r (List.mem_cons_self _ _))
      have := addLookup_some e rs r r.Commits
      rw [hr] at this
      exact this
    · rw [if_neg he, if_neg he]
      simp only [decide_eq_false he, Int.zero_add]
      exact ih (fun r1 h1 => hrs r1 (List.mem_cons_of_mem _ h1))

theorem surviving_some (regex : Re) (line : Str) (r : Contribution)
    (h : surviving regex line = some r) :
    parseContribution regex line = some r ∧ 0 < r.Commits := by
  unfold surviving at h
  cases hp : parseContribution regex line with
  | none => rw [hp] at h; cases h
  | some c =>
    rw [hp] at h
    simp only [] at h
    split at h
    · cases h
    · simp only [Option.some.injEq] at h
      subst h
      exact ⟨rfl, by omega⟩

theorem survivors_mem (regex : Re) (text : Str) (r : Contribution)
    (h : r ∈ survivors regex text) :
    ∃ line ∈ splitLines text, parseContribution regex line = some r ∧ 0 < r.Commits := by
  unfold survivors at h
  obtain ⟨line, hl, hs⟩ := List.mem_filterMap.1 h
  exact ⟨line, hl, surviving_some regex line r hs⟩

theorem survivors_inRange (regex : Re) (text : Str) (r : Contribution)
    (h : r ∈ survivors regex text) : InRange r.Commits := by
  obtain ⟨line, _, hp, _⟩ := survivors_mem regex text r h
  exact parse_inRange regex line r hp

theorem survivors_mailmap_commits (mailmap : Str) (r : Contribution)
    (h : r ∈ survivors regexMailmap mailmap) : r.Commits = (initial r.Email).getD 0 := by
  obtain ⟨line, _, hp, _⟩ := survivors_mem regexMailmap mailmap r h
  exact parse_mailmap_commits line r hp

/-- The entry of every email after both passes: the first surviving record
of the email, mailmap records first, with the wrapped total as its count. -/
theorem aggregate_lookup (mailmap list e : Str) :
    mapGet (aggregate mailmap list) e =
      match (survivors regexMailmap mailmap ++ survivors regexContribution list).find?
          fun r => decide (r.Email = e) with
      | some r => some { r with Commits := wrapInt (baseline mailmap e + logCount list e) }
      | none => none := by
  rw [aggregate_eq, mapGet_add_fold, mapGet_seed_fold, List.find?_append]
  simp only [mapGet]
  cases h1 : (survivors regexMailmap mailmap).find? fun r => decide (r.Email = e) with
  | some c =>
    simp only [Option.or_some]
    have hc := List.mem_of_find?_eq_some h1
    have he : c.Email = e := by simpa using List.find?_some h1
    have hb : baseline mailmap e = c.Commits := by
      unfold baseline
      have hany : (survivors regexMailmap mailmap).any (fun c => decide (c.Email = e)) = true :=
        List.any_eq_true.2 ⟨c, hc, by simpa using he⟩
      rw [if_pos hany, survivors_mailmap_commits mailmap c hc, he]
    have hw := addLookup_some e (survivors regexContribution list) c c.Commits
    rw [wrapInt_of_inRange _ (survivors_inRange _ _ c hc)] at hw
    rw [hb]
    exact hw
  | none =>
    simp only [Option.none_or]
    have hb : baseline mailmap e = 0 := by
      unfold baseline
      have hany : ¬ (survivors regexMailmap mailmap).any (fun c => decide (c.Email = e)) = true := by
        intro ha
        obtain ⟨c, hc, hce⟩ := List.any_eq_true.1 ha
        exact List.find?_eq_none.1 h1 c hc hce
      rw [if_neg hany]
    rw [hb, Int.zero_add, addLookup_none e _ (fun r hr => survivors_inRange _ _ r hr)]
    rfl

theorem mapGet_none_iff {V : Type} (m : GoMap V) (k : Str) :
    mapGet m k = none ↔ k ∉ m.map fun kv => kv.1 := by
  induction m with
  | nil => simp [mapGet]
  | cons p m ih =>
    obtain ⟨k1, v1⟩ := p
    simp only [mapGet, List.map_cons, List.mem_cons, not_or]
    by_cases h : k1 = k
    · subst h
      rw [if_pos rfl]
      constructor
      · intro hc; cases hc
      · intro hc; exact absurd rfl hc.1
    · simp only [if_neg h, ih]
      constructor
      · intro hm; exact ⟨fun e => h e.symm, hm⟩
      · intro hm; exact hm.2

theorem mapGet_mem {V : Type} (m : GoMap V) (k : Str) (v : V) (h : mapGet m k = some v) :
    (k, v) ∈ m := by
  induction m with
  | nil => simp [mapGet] at h
  | cons p m ih =>
    obtain ⟨k1, v1⟩ := p
    simp only [mapGet] at h
    by_cases hk : k1 = k
    · subst hk
      rw [if_pos rfl] at h
      cases h
      exact List.mem_cons_self _ _
    · rw [if_neg hk] at h
      exact List.mem_cons_of_mem _ (ih h)

theorem mem_mapGet {V : Type} (m : GoMap V) (k : Str) (v : V)
    (hn : (m.map fun kv => kv.1).Nodup) (h : (k, v) ∈ m) : mapGet m k = some v := by
  induction m with
  | nil => cases h
  | cons p m ih =>
    obtain ⟨k1, v1⟩ := p
    simp only [List.map_cons, List.nodup_cons] at hn
    simp only [mapGet]
    rcases List.mem_cons.1 h with h1 | h1
    · cases h1
      rw [if_pos rfl]
    · have hne : k1 ≠ k := by
        intro e
        subst e
        exact hn.1 (List.mem_map.2 ⟨(k1, v), h1, rfl⟩)
      rw [if_neg hne]
      exact ih hn.2 h1

theorem mapSet_keys {V : Type} (m : GoMap V) (k : Str) (v : V) :
    (mapSet m k v).map (fun kv => kv.1) =
      if k ∈ m.map (fun kv => kv.1) then m.map (fun kv => kv.1)
      else m.map (fun kv => kv.1) ++ [k] := by
  induction m with
  | nil => simp [mapSet]
  | cons p m ih =>
    obtain ⟨k1, v1⟩ := p
    simp only [mapSet]
    by_cases h : k1 = k
    · subst h
      simp only [List.map_cons, List.mem_cons, true_or, if_true]
    · rw [if_neg h]
      simp only [List.map_cons, ih, List.mem_cons]
      have h2 : ¬ k = k1 := fun e => h e.symm
      by_cases hm : k ∈ m.map (fun kv => kv.1)
      · simp only [hm, or_true, if_true]
      · simp only [hm, h2, or_self, if_false, List.cons_append]

theorem mem_mapSet {V : Type} (m : GoMap V) (k : Str) (v : V) (kv : Str × V)
    (h : kv ∈ mapSet m k v) : kv = (k, v) ∨ kv ∈ m := by
  induction m with
  | nil =>
    simp only [mapSet, List.mem_singleton] at h
    exact Or.inl h
  | cons p m ih =>
    obtain ⟨k1, v1⟩ := p
    simp only [mapSet] at h
    by_cases hk : k1 = k
    · rw [if_pos hk] at h
      rcases List.mem_cons.1 h with h1 | h1
      · exact Or.inl h1
      · exact Or.inr (List.mem_cons_of_mem _ h1)
    · rw [if_neg hk] at h
      rcases List.mem_cons.1 h with h1 | h1
      · exact Or.inr (h1 ▸ List.mem_cons_self _ _)
      · rcases ih h1 with h2 | h2
        · exact Or.inl h2
        · exact Or.inr (List.mem_cons_of_mem _ h2)

theorem keyed_mapSet (m : GoMap Contribution) (c : Contribution) (hm : Keyed m) :
    Keyed (mapSet m c.Email c) := by
  constructor
  · rw [mapSet_keys]
    split
    · exact hm.1
    · rename_i hk
      exact List.Nodup.append hm.1 (List.nodup_singleton _) (List.disjoint_singleton.2 hk)
  · intro kv hkv
    rcases mem_mapSet m c.Email c kv hkv with h | h
    · rw [h]
    · exact hm.2 kv h

theorem keyed_seedStep (m : GoMap Contribution) (c : Contribution) (hm : Keyed m) :
    Keyed (seedStep m c) := by
  unfold seedStep
  cases mapGet m c.Email with
  | some _ => exact hm
  | none => exact keyed_mapSet m c hm

theorem keyed_addStep (m : GoMap Contribution) (c : Contribution) (hm : Keyed m) :
    Keyed (addStep m c) := by
  unfold addStep
  cases h : mapGet m c.Email with
  | some c0 =>
    have he : c.Email = c0.Email := hm.2 _ (mapGet_mem m _ _ h)
    have := keyed_mapSet m { c0 with Commits := wrapInt (c0.Commits + c.Commits) } hm
    simp only [] at this ⊢
    rw [he]
    exact this
  | none => exact keyed_mapSet m c hm

theorem keyed_foldl (f : GoMap Contribution → Contribution → GoMap Contribution)
    (hf : ∀ m c, Keyed m → Keyed (f m c)) :
    ∀ (rs : List Contribution) (m : GoMap Contribution), Keyed m → Keyed (rs.foldl f m) := by
  intro rs
  induction rs with
  | nil => intro m hm; exact hm
  | cons r rs ih => intro m hm; exact ih _ (hf m r hm)

theorem keyed_aggregate (mailmap list : Str) : Keyed (aggregate mailmap list) := by
  rw [aggregate_eq]
  apply keyed_foldl addStep keyed_addStep
  apply keyed_foldl seedStep keyed_seedStep
  exact ⟨List.nodup_nil, fun _ h => by cases h⟩

/-- An entry of the aggregated map is found under its key, and its key is
its email. -/
theorem aggregate_entry (mailmap list e : Str) (c : Contribution)
    (h : (e, c) ∈ aggregate mailmap list) :
    mapGet (aggregate mailmap list) e = some c ∧ e = c.Email :=
  ⟨mem_mapGet _ e c (keyed_aggregate mailmap list).1 h,
   (keyed_aggregate mailmap list).2 (e, c) h⟩

theorem baseline_nonneg (mailmap e : Str) : 0 ≤ baseline mailmap e := by
  unfold baseline
  split
  · cases hi : initial e with
    | none => simp
    | some i => have := (initial_inRange e i hi).1; simp only [Option.getD_some]; omega
  · exact Int.le_refl 0

theorem countFor_nonneg (e : Str) :
    ∀ rs : List Contribution, (∀ r ∈ rs, 0 < r.Commits) → 0 ≤ countFor e rs := by
  intro rs
  induction rs with
  | nil => intro _; simp [countFor]
  | cons r rs ih =>
    intro h
    rw [countFor_cons]
    have h1 := ih (fun r1 h1 => h r1 (List.mem_cons_of_mem _ h1))
    have h2 := h r (List.mem_cons_self _ _)
    split <;> omega

theorem countFor_pos (e : Str) :
    ∀ rs : List Contribution, (∀ r ∈ rs, 0 < r.Commits) → (∃ r ∈ rs, r.Email = e) →
      0 < countFor e rs := by
  intro rs
  induction rs with
  | nil => intro _ h; obtain ⟨r, hr, _⟩ := h; cases hr
  | cons r rs ih =>
    intro h hex
    rw [countFor_cons]
    have h0 := countFor_nonneg e rs (fun r1 h1 => h r1 (List.mem_cons_of_mem _ h1))
    have h2 := h r (List.mem_cons_self _ _)
    by_cases he : r.Email = e
    · rw [if_pos he]; omega
    · rw [if_neg he]
      obtain ⟨r1, hr1, he1⟩ := hex
      rcases List.mem_cons.1 hr1 with h3 | h3
      · subst h3; exact absurd he1 he
      · have := ih (fun r2 h2 => h r2 (List.mem_cons_of_mem _ h2)) ⟨r1, h3, he1⟩
        omega

theorem survivors_pos (regex : Re) (text : Str) (r : Contribution)
    (h : r ∈ survivors regex text) : 0 < r.Commits := by
  obtain ⟨_, _, _, hp⟩ := survivors_mem regex text r h
  exact hp

theorem logCount_nonneg (list e : Str) : 0 ≤ logCount list e :=
  countFor_nonneg e _ (fun r hr => survivors_pos _ _ r hr)

/-- An email that has an entry has a positive total. -/
theorem total_pos (mailmap list e : Str) (c : Contribution)
    (h : mapGet (aggregate mailmap list) e = some c) :
    0 < baseline mailmap e + logCount list e := by
  rw [aggregate_lookup, List.find?_append] at h
  have hb := baseline_nonneg mailmap e
  have hl := logCount_nonneg list e
  cases h1 : (survivors regexMailmap mailmap).find? fun r => decide (r.Email = e) with
  | some r =>
    have hr := List.mem_of_find?_eq_some h1
    have he : r.Email = e := by simpa using List.find?_some h1
    have hbase : baseline mailmap e = r.Commits := by
      unfold baseline
      have hany : (survivors regexMailmap mailmap).any (fun c => decide (c.Email = e)) = true :=
        List.any_eq_true.2 ⟨r, hr, by simpa using he⟩
      rw [if_pos hany, survivors_mailmap_commits mailmap r hr, he]
    have := survivors_pos _ _ r hr
    omega
  | none =>
    rw [h1, Option.none_or] at h
    cases h2 : (survivors regexContribution list).find? fun r => decide (r.Email = e) with
    | none => rw [h2] at h; cases h
    | some r =>
      have hr := List.mem_of_find?_eq_some h2
      have he : r.Email = e := by simpa using List.find?_some h2
      have : 0 < logCount list e :=
        countFor_pos e _ (fun r hr => survivors_pos _ _ r hr) ⟨r, hr, he⟩
      omega

/-- C1, as stated, fails: a seeded email with baseline 28 and one log line
with count 2^63 - 1 ends with the wrapped count -9223372036854775781, not
with the sum 9223372036854775835. -/
theorem aggregate_commits_overflow :
    ("hakobe@gmail.com".toList,
      (⟨[], "Hakobe".toList, "hakobe@gmail.com".toList, -9223372036854775781⟩ : Contribution)) ∈
      aggregate "Hakobe <hakobe@gmail.com>".toList
        "9223372036854775807\tH <hakobe@gmail.com>".toList ∧
    baseline "Hakobe <hakobe@gmail.com>".toList "hakobe@gmail.com".toList +
      logCount "9223372036854775807\tH <hakobe@gmail.com>".toList "hakobe@gmail.com".toList =
        9223372036854775835 := by
  decide

/-- C1 (amended): the entry of every email `e` of the aggregated map has
`Commits` equal to `S(e) + L(e)` reduced to the range of `int` by
wrap-around, hence equal to `S(e) + L(e)` whenever this sum is below 2^63. -/
theorem aggregate_commits_wrapped (mailmap list e : Str) (c : Contribution)
    (h : (e, c) ∈ aggregate mailmap list) :
    c.Commits = wrapInt (baseline mailmap e + logCount list e) ∧
    (baseline mailmap e + logCount list e < 2 ^ 63 →
      c.Commits = baseline mailmap e + logCount list e) := by
  have hg := (aggregate_entry mailmap list e c h).1
  have hpos := total_pos mailmap list e c hg
  rw [aggregate_lookup] at hg
  have hc : c.Commits = wrapInt (baseline mailmap e + logCount list e) := by
    split at hg
    · simp only [Option.some.injEq] at hg
      rw [← hg]
    · cases hg
  refine ⟨hc, fun hlt => ?_⟩
  rw [hc]
  exact wrapInt_of_inRange _ ⟨by omega, hlt⟩

/-- Baseline 28 and one log line with count 3 give 31. -/
theorem aggregate_commits_wrapped_witness :
    ("hakobe@gmail.com".toList,
      (⟨[], "Hakobe".toList, "hakobe@gmail.com".toList, 31⟩ : Contribution)) ∈
      aggregate "Hakobe <hakobe@gmail.com>".toList "3\tH <hakobe@gmail.com>".toList ∧
    (31 : Int) = wrapInt (baseline "Hakobe <hakobe@gmail.com>".toList "hakobe@gmail.com".toList +
      logCount "3\tH <hakobe@gmail.com>".toList "hakobe@gmail.com".toList) :=
  ⟨by decide,
   (aggregate_commits_wrapped "Hakobe <hakobe@gmail.com>".toList
      "3\tH <hakobe@gmail.com>".toList "hakobe@gmail.com".toList
      ⟨[], "Hakobe".toList, "hakobe@gmail.com".toList, 31⟩ (by decide)).1⟩

/-- C2 (name is not overwritten on merge): for every email `e` the `Login`,
`Name` and `Email` of its final entry are those of the first surviving
record for `e`, mailmap records before shortlog records, and `e` has an
entry exactly when there is such a record; a later mailmap line leaves an
existing entry as it is, a later shortlog line changes at most its
`Commits`. -/
theorem name_not_overwritten (mailmap list e : Str) :
    ((mapGet (aggregate mailmap list) e).map fun c => (c.Login, c.Name, c.Email)) =
      (((survivors regexMailmap mailmap ++ survivors regexContribution list).find?
        fun r => decide (r.Email = e)).map fun r => (r.Login, r.Name, r.Email)) ∧
    (∀ (m : GoMap Contribution) (line : Str) (c : Contribution), mapGet m e = some c →
      mapGet (mailmapStep m line) e = some c) ∧
    (∀ (m : GoMap Contribution) (line : Str) (c : Contribution), mapGet m e = some c →
      ∃ c1, mapGet (logStep m line) e = some c1 ∧
        c1.Login = c.Login ∧ c1.Name = c.Name ∧ c1.Email = c.Email) := by
  refine ⟨?_, ?_, ?_⟩
  · rw [aggregate_lookup]
    cases (survivors regexMailmap mailmap ++ survivors regexContribution list).find?
      fun r => decide (r.Email = e) <;> rfl
  · intro m line c hc
    rw [mailmapStep_eq]
    cases surviving regexMailmap line with
    | none => exact hc
    | some r =>
      have := mapGet_seed_fold e [r] m
      simp only [List.foldl_cons, List.foldl_nil, hc] at this
      exact this
  · intro m line c hc
    rw [logStep_eq]
    cases surviving regexContribution line with
    | none => exact ⟨c, hc, rfl, rfl, rfl⟩
    | some r =>
      have := mapGet_add_fold e [r] m
      simp only [List.foldl_cons, List.foldl_nil, hc, addLookup_cons, addLookup] at this
      simp only []
      rw [this]
      split
      · exact ⟨_, rfl, rfl, rfl, rfl⟩
      · exact ⟨c, rfl, rfl, rfl, rfl⟩

/-- The entry seeded as `Hakobe` keeps that name when a log line for the
same email says `H`. -/
theorem name_not_overwritten_witness :
    mapGet [("hakobe@gmail.com".toList,
        (⟨[], "Hakobe".toList, "hakobe@gmail.com".toList, 28⟩ : Contribution))]
      "hakobe@gmail.com".toList =
      some ⟨[], "Hakobe".toList, "hakobe@gmail.com".toList, 28⟩ ∧
    ∃ c1, mapGet (logStep [("hakobe@gmail.com".toList,
          (⟨[], "Hakobe".toList, "hakobe@gmail.com".toList, 28⟩ : Contribution))]
        "3\tH <hakobe@gmail.com>".toList) "hakobe@gmail.com".toList = some c1 ∧
      c1.Login = [] ∧ c1.Name = "Hakobe".toList ∧ c1.Email = "hakobe@gmail.com".toList :=
  ⟨by decide,
   (name_not_overwritten [] [] "hakobe@gmail.com".toList).2.2
      [("hakobe@gmail.com".toList, ⟨[], "Hakobe".toList, "hakobe@gmail.com".toList, 28⟩)]
      "3\tH <hakobe@gmail.com>".toList
      ⟨[], "Hakobe".toList, "hakobe@gmail.com".toList, 28⟩ (by decide)⟩

/-- C5 (bot exclusion): whatever the pattern, `parseContribution` returns
nothing when the matched email is the bot identity, so no parsed record has
it; and no entry of the aggregated map has the bot identity as key or as
email. -/
theorem bot_excluded :
    (∀ (regex : Re) (line : Str) (m : List Str),
      findStringSubmatch regex (trimSpace line) = some m → m.getD 3 [] = bot →
      parseContribution regex line = none) ∧
    (∀ (regex : Re) (line : Str) (c : Contribution),
      parseContribution regex line = some c → c.Email ≠ bot) ∧
    (∀ (mailmap list e : Str) (c : Contribution), (e, c) ∈ aggregate mailmap list →
      e ≠ bot ∧ c.Email ≠ bot) := by
  refine ⟨?_, parse_email_ne_bot, ?_⟩
  · intro regex line m hm hb
    cases hp : parseContribution regex line with
    | none => rfl
    | some c =>
      exfalso
      have hne := parse_email_ne_bot regex line c hp
      unfold parseContribution at hp
      simp only [hm] at hp
      split at hp
      · cases hp
      · split at hp
        · cases hp
        · cases hp
  · intro mailmap list e c h
    obtain ⟨hg, he⟩ := aggregate_entry mailmap list e c h
    rw [aggregate_lookup] at hg
    have hcb : c.Email ≠ bot := by
      cases hf : (survivors regexMailmap mailmap ++ survivors regexContribution list).find?
          fun r => decide (r.Email = e) with
      | none => rw [hf] at hg; cases hg
      | some r =>
        rw [hf] at hg
        simp only [Option.some.injEq] at hg
        have hr := List.mem_of_find?_eq_some hf
        have hrb : r.Email ≠ bot := by
          rcases List.mem_append.1 hr with h1 | h1
          · obtain ⟨line, _, hp, _⟩ := survivors_mem _ _ r h1
            exact parse_email_ne_bot _ line r hp
          · obtain ⟨line, _, hp, _⟩ := survivors_mem _ _ r h1
            exact parse_email_ne_bot _ line r hp
        rw [← hg]
        exact hrb
    exact ⟨he ▸ hcb, hcb⟩

/-- A mailmap line and a shortlog line of the bot are matched by their
patterns and dropped by the parser. -/
theorem bot_excluded_witness :
    findStringSubmatch regexContribution
        (trimSpace "7\tFireworq Bot <fireworq.github@gmail.com>".toList) =
      some ["7\tFireworq Bot <fireworq.github@gmail.com>".toList, "7".toList,
        "Fireworq Bot".toList, "fireworq.github@gmail.com".toList] ∧
    parseContribution regexContribution
      "7\tFireworq Bot <fireworq.github@gmail.com>".toList = none :=
  ⟨by decide,
   bot_excluded.1 regexContribution "7\tFireworq Bot <fireworq.github@gmail.com>".toList
     ["7\tFireworq Bot <fireworq.github@gmail.com>".toList, "7".toList,
        "Fireworq Bot".toList, "fireworq.github@gmail.com".toList] (by decide) (by decide)⟩

/-- C6, as stated, fails: two shortlog lines for one email with counts
2^63 - 1 and 1 leave an entry whose count has wrapped to -2^63. -/
theorem aggregate_commits_negative :
    ("a@x".toList, (⟨[], "A".toList, "a@x".toList, -9223372036854775808⟩ : Contribution)) ∈
      aggregate [] "9223372036854775807\tA <a@x>\n1\tA <a@x>".toList ∧
    ¬ (0 : Int) < (⟨[], "A".toList, "a@x".toList, -9223372036854775808⟩ : Contribution).Commits := by
  decide

/-- C6 (amended): a parsed record with commit count at most 0 is discarded
by both passes (so a mailmap line whose email is not in the historical
table adds nothing), and every entry of the aggregated map whose total
`S(e) + L(e)` is below 2^63 has `Commits > 0`. -/
theorem aggregate_commits_positive :
    (∀ (m : GoMap Contribution) (line : Str) (c : Contribution),
      parseContribution regexMailmap line = some c → c.Commits ≤ 0 → mailmapStep m line = m) ∧
    (∀ (m : GoMap Contribution) (line : Str) (c : Contribution),
      parseContribution regexContribution line = some c → c.Commits ≤ 0 → logStep m line = m) ∧
    (∀ (m : GoMap Contribution) (line : Str) (c : Contribution),
      parseContribution regexMailmap line = some c → initial c.Email = none →
      mailmapStep m line = m) ∧
    (∀ (mailmap list e : Str) (c : Contribution), (e, c) ∈ aggregate mailmap list →
      baseline mailmap e + logCount list e < 2 ^ 63 → 0 < c.Commits) := by
  refine ⟨?_, ?_, ?_, ?_⟩
  · intro m line c hp hc
    unfold mailmapStep
    rw [hp]
    simp only [if_pos hc]
  · intro m line c hp hc
    unfold logStep
    rw [hp]
    simp only [if_pos hc]
  · intro m line c hp hi
    have hc : c.Commits ≤ 0 := by
      rw [parse_mailmap_commits line c hp, hi]
      exact Int.le_refl 0
    unfold mailmapStep
    rw [hp]
    simp only [if_pos hc]
  · intro mailmap list e c h hlt
    have hg := (aggregate_entry mailmap list e c h).1
    have hpos := total_pos mailmap list e c hg
    rw [aggregate_lookup] at hg
    split at hg
    · simp only [Option.some.injEq] at hg
      rw [← hg]
      simp only []
      rw [wrapInt_of_inRange _ ⟨by omega, hlt⟩]
      exact hpos
    · cases hg

/-- A shortlog line with count 0 adds no entry. -/
theorem aggregate_commits_positive_witness :
    parseContribution regexContribution "0\tZ <z@z>".toList =
      some ⟨[], "Z".toList, "z@z".toList, 0⟩ ∧
    logStep [] "0\tZ <z@z>".toList = [] :=
  ⟨by decide,
   aggregate_commits_positive.2.1 [] "0\tZ <z@z>".toList ⟨[], "Z".toList, "z@z".toList, 0⟩
     (by decide) (by decide)⟩

/-! ### Byte-wise order of strings -/

theorem char_toNat_inj (c d : Char) (h : c.toNat = d.toNat) : c = d := by
  apply Char.eq_of_val_eq
  cases c with | mk cv ch =>
  cases d with | mk dv dh =>
  cases cv with | mk cf =>
  cases dv with | mk df =>
  simp only [Char.toNat, UInt32.toNat] at h
  simp only
  congr
  exact BitVec.eq_of_toFin_eq (Fin.eq_of_val_eq h)

/-- UTF-8 is a prefix code: the encoding of the first code point determines
it. -/
theorem utf8Bytes_append_inj (c d : Char) (x y : List Nat)
    (h : utf8Bytes c ++ x = utf8Bytes d ++ y) : c = d ∧ x = y := by
  have key : c.toNat = d.toNat ∧ x = y := by
    unfold utf8Bytes at h
    simp only [] at h
    split at h <;> split at h <;> try split at h
    all_goals try split at h
    all_goals try split at h
    all_goals try split at h
    all_goals simp only [List.cons_append, List.nil_append, List.cons.injEq] at h
    all_goals first
      | (exfalso; omega)
      | (refine ⟨by omega, ?_⟩; simp only [h])
  exact ⟨char_toNat_inj c d key.1, key.2⟩

theorem strBytes_inj : ∀ s t : Str, strBytes s = strBytes t → s = t := by
  intro s
  induction s with
  | nil =>
    intro t h
    cases t with
    | nil => rfl
    | cons d ds =>
      exfalso
      simp only [strBytes, utf8Bytes] at h
      split at h
      · cases h
      · split at h
        · cases h
        · split at h <;> cases h
  | cons c cs ih =>
    intro t h
    cases t with
    | nil =>
      exfalso
      simp only [strBytes, utf8Bytes] at h
      split at h
      · cases h
      · split at h
        · cases h
        · split at h <;> cases h
    | cons d ds =>
      simp only [strBytes] at h
      obtain ⟨h1, h2⟩ := utf8Bytes_append_inj c d _ _ h
      rw [h1, ih ds h2]

theorem bytesLt_irrefl : ∀ a : List Nat, bytesLt a a = false := by
  intro a
  induction a with
  | nil => rfl
  | cons x xs ih => simp [bytesLt, ih]

theorem bytesLt_trans : ∀ a b c : List Nat, bytesLt a b = true → bytesLt b c = true →
    bytesLt a c = true := by
  intro a
  induction a with
  | nil =>
    intro b c h1 h2
    cases c with
    | nil => cases b <;> simp [bytesLt] at h2
    | cons z zs => rfl
  | cons x xs ih =>
    intro b c h1 h2
    cases b with
    | nil => simp [bytesLt] at h1
    | cons y ys =>
      cases c with
      | nil => simp [bytesLt] at h2
      | cons z zs =>
        simp only [bytesLt] at h1 h2 ⊢
        by_cases hxy : x < y
        · by_cases hyz : y < z
          · rw [if_pos (by omega)]
          · rw [if_neg hyz] at h2
            by_cases hzy : z < y
            · rw [if_pos hzy] at h2; cases h2
            · rw [if_pos (by omega)]
        · rw [if_neg hxy] at h1
          by_cases hyx : y < x
          · rw [if_pos hyx] at h1; cases h1
          · rw [if_neg hyx] at h1
            have hxy2 : x = y := by omega
            subst hxy2
            by_cases hyz : x < z
            · rw [if_pos hyz]
            · rw [if_neg hyz] at h2 ⊢
              by_cases hzy : z < x
              · rw [if_pos hzy] at h2; cases h2
              · rw [if_neg hzy] at h2 ⊢
                exact ih ys zs h1 h2

theorem bytesLt_total : ∀ a b : List Nat, a ≠ b → bytesLt a b = true ∨ bytesLt b a = true := by
  intro a
  induction a with
  | nil =>
    intro b h
    cases b with
    | nil => exact absurd rfl h
    | cons y ys => left; rfl
  | cons x xs ih =>
    intro b h
    cases b with
    | nil => right; rfl
    | cons y ys =>
      simp only [bytesLt]
      by_cases hxy : x < y
      · left; rw [if_pos hxy]
      · by_cases hyx : y < x
        · right; rw [if_pos hyx]
        · have hxy2 : x = y := by omega
          subst hxy2
          simp only [if_neg hxy]
          exact ih ys (fun e => h (by rw [e]))

theorem strLt_irrefl (s : Str) : strLt s s = false := bytesLt_irrefl _

theorem strLt_trans (s t u : Str) (h1 : strLt s t = true) (h2 : strLt t u = true) :
    strLt s u = true := bytesLt_trans _ _ _ h1 h2

theorem strLt_total (s t : Str) (h : s ≠ t) : strLt s t = true ∨ strLt t s = true :=
  bytesLt_total _ _ (fun e => h (strBytes_inj s t e))

theorem strLt_asymm (s t : Str) (h1 : strLt s t = true) (h2 : strLt t s = true) : False := by
  have := strLt_trans s t s h1 h2
  rw [strLt_irrefl] at this
  cases this

/-! ### Sorting (C3) -/

theorem less_iff_before (a b : Contribution) (ha : NonNeg a) (hb : NonNeg b) :
    less a b = true ↔ before a b := by
  unfold NonNeg at ha hb
  have hw : wrapInt (a.Commits - b.Commits) = a.Commits - b.Commits :=
    wrapInt_of_inRange _ ⟨by omega, by omega⟩
  unfold less before
  simp only [hw, Bool.or_eq_true, Bool.and_eq_true, decide_eq_true_eq]
  constructor
  · rintro (h | ⟨h1, h2⟩)
    · left; omega
    · right; exact ⟨by omega, h2⟩
  · rintro (h | ⟨h1, h2⟩)
    · left; omega
    · right; exact ⟨by omega, h2⟩

theorem before_trans (a b c : Contribution) (h1 : before a b) (h2 : before b c) :
    before a c := by
  unfold before at *
  rcases h1 with h1 | ⟨h1, e1⟩
  · rcases h2 with h2 | ⟨h2, _⟩
    · left; omega
    · left; omega
  · rcases h2 with h2 | ⟨h2, e2⟩
    · left; omega
    · right; exact ⟨by omega, strLt_trans _ _ _ e1 e2⟩

theorem before_asymm (a b : Contribution) (h1 : before a b) (h2 : before b a) : False := by
  unfold before at *
  rcases h1 with h1 | ⟨h1, e1⟩
  · rcases h2 with h2 | ⟨h2, _⟩ <;> omega
  · rcases h2 with h2 | ⟨h2, e2⟩
    · omega
    · exact strLt_asymm _ _ e1 e2

theorem before_total (a b : Contribution) (h : a.Email ≠ b.Email) : before a b ∨ before b a := by
  unfold before
  rcases Int.lt_trichotomy a.Commits b.Commits with h1 | h1 | h1
  · right; left; omega
  · rcases strLt_total _ _ h with h2 | h2
    · left; right; exact ⟨h1, h2⟩
    · right; right; exact ⟨h1.symm, h2⟩
  · left; left; omega

theorem insertBack_perm {α : Type} (lt : α → α → Bool) (x : α) :
    ∀ acc : List α, (insertBack lt x acc).Perm (x :: acc) := by
  intro acc
  induction acc with
  | nil => exact List.Perm.refl _
  | cons y ys ih =>
    unfold insertBack
    split
    · exact ((List.Perm.cons y ih).trans (List.Perm.swap x y ys))
    · exact List.Perm.refl _

theorem foldl_insertBack_perm {α : Type} (lt : α → α → Bool) :
    ∀ (items acc : List α),
      (items.foldl (fun acc x => insertBack lt x acc) acc).Perm (items.reverse ++ acc) := by
  intro items
  induction items with
  | nil => intro acc; exact List.Perm.refl _
  | cons x xs ih =>
    intro acc
    rw [List.foldl_cons, List.reverse_cons, List.append_assoc]
    exact (ih _).trans (List.Perm.append_left _ (insertBack_perm lt x acc))

theorem sortSlice_perm {α : Type} (lt : α → α → Bool) (items : List α) :
    (sortSlice lt items).Perm items := by
  unfold sortSlice
  refine (List.reverse_perm _).trans ?_
  have := foldl_insertBack_perm lt items []
  rw [List.append_nil] at this
  exact this.trans (List.reverse_perm _)

theorem insertBack_sorted (x : Contribution) :
    ∀ acc : List Contribution, NonNeg x → (∀ y ∈ acc, NonNeg y) →
      (∀ y ∈ acc, y.Email ≠ x.Email) →
      acc.Pairwise (fun a b => before b a) →
      (insertBack less x acc).Pairwise (fun a b => before b a) := by
  intro acc
  induction acc with
  | nil => intro _ _ _ _; simp [insertBack]
  | cons y ys ih =>
    intro hx hacc hne hs
    unfold insertBack
    have hy := hacc y (List.mem_cons_self _ _)
    rw [List.pairwise_cons] at hs
    by_cases hl : less x y = true
    · rw [if_pos hl]
      have hxy := (less_iff_before x y hx hy).1 hl
      rw [List.pairwise_cons]
      refine ⟨?_, ih hx (fun z hz => hacc z (List.mem_cons_of_mem _ hz))
        (fun z hz => hne z (List.mem_cons_of_mem _ hz)) hs.2⟩
      intro z hz
      rcases List.mem_cons.1 ((insertBack_perm less x ys).subset hz) with h1 | h1
      · rw [h1]; exact hxy
      · exact hs.1 z h1
    · rw [if_neg hl]
      have hyx : before y x := by
        rcases before_total y x (hne y (List.mem_cons_self _ _)) with h | h
        · exact h
        · exact absurd ((less_iff_before x y hx hy).2 h) hl
      rw [List.pairwise_cons]
      refine ⟨?_, List.pairwise_cons.2 hs⟩
      intro z hz
      rcases List.mem_cons.1 hz with h1 | h1
      · rw [h1]; exact hyx
      · exact before_trans z y x (hs.1 z h1) hyx

theorem foldl_insertBack_sorted :
    ∀ (items acc : List Contribution), (∀ c ∈ items, NonNeg c) → (∀ c ∈ acc, NonNeg c) →
      items.Pairwise (fun a b => a.Email ≠ b.Email) →
      (∀ y ∈ acc, ∀ x ∈ items, y.Email ≠ x.Email) →
      acc.Pairwise (fun a b => before b a) →
      (items.foldl (fun acc x => insertBack less x acc) acc).Pairwise (fun a b => before b a) := by
  intro items
  induction items with
  | nil => intro acc _ _ _ _ hs; exact hs
  | cons x xs ih =>
    intro acc hi ha hd hax hs
    rw [List.foldl_cons]
    rw [List.pairwise_cons] at hd
    have hx := hi x (List.mem_cons_self _ _)
    have hmem : ∀ z ∈ insertBack less x acc, z = x ∨ z ∈ acc := fun z hz =>
      List.mem_cons.1 ((insertBack_perm less x acc).subset hz)
    apply ih
    · exact fun c hc => hi c (List.mem_cons_of_mem _ hc)
    · intro c hc
      rcases hmem c hc with h | h
      · rw [h]; exact hx
      · exact ha c h
    · exact hd.2
    · intro y hy z hz
      rcases hmem y hy with h | h
      · rw [h]; exact hd.1 z hz
      · exact hax y h z (List.mem_cons_of_mem _ hz)
    · exact insertBack_sorted x acc hx ha (fun y hy => hax y hy x (List.mem_cons_self _ _)) hs

theorem sortSlice_sorted (items : List Contribution) (hr : ∀ c ∈ items, NonNeg c)
    (hd : items.Pairwise (fun a b => a.Email ≠ b.Email)) :
    (sortSlice less items).Pairwise before := by
  unfold sortSlice
  rw [List.pairwise_reverse]
  exact foldl_insertBack_sorted items [] hr (fun _ h => by cases h) hd
    (fun _ h => by cases h) List.Pairwise.nil

/-- Two lists with the same elements, both ordered by an asymmetric
relation, are equal. -/
theorem sorted_perm_eq {α : Type} (R : α → α → Prop) :
    ∀ (l₁ l₂ : List α), l₁.Perm l₂ → l₁.Pairwise R → l₂.Pairwise R →
      (∀ a ∈ l₁, ∀ b ∈ l₁, R a b → R b a → False) → l₁ = l₂ := by
  intro l₁
  induction l₁ with
  | nil => intro l₂ hp _ _ _; exact hp.nil_eq
  | cons a t ih =>
    intro l₂ hp h1 h2 hanti
    cases l₂ with
    | nil => exact absurd hp.symm.nil_eq (by simp)
    | cons b t₂ =>
      rw [List.pairwise_cons] at h1 h2
      have hab : a = b := by
        by_contra hne
        have ha : a ∈ t₂ := by
          rcases List.mem_cons.1 (hp.subset (List.mem_cons_self a t)) with h | h
          · exact absurd h hne
          · exact h
        have hb : b ∈ t := by
          rcases List.mem_cons.1 (hp.symm.subset (List.mem_cons_self b t₂)) with h | h
          · exact absurd h.symm hne
          · exact h
        exact hanti a (List.mem_cons_self _ _) b (List.mem_cons_of_mem _ hb)
          (h1.1 b hb) (h2.1 a ha)
      subst hab
      have hp2 : t.Perm t₂ := (List.perm_cons a).1 hp
      rw [ih t₂ hp2 h1.2 h2.2
        (fun x hx y hy => hanti x (List.mem_cons_of_mem _ hx) y (List.mem_cons_of_mem _ hy))]

/-- Whatever algorithm sorts the slice: a permutation of the entries that is
sorted in the sense of `sort.Slice` (no later element is less than an
earlier one) is the list `sortSlice` returns. -/
theorem sorted_perm_unique (items out : List Contribution) (hr : ∀ c ∈ items, NonNeg c)
    (hd : items.Pairwise (fun a b => a.Email ≠ b.Email)) (hp : out.Perm items)
    (hs : out.Pairwise (fun x y => less y x = false)) : out = sortSlice less items := by
  have hd2 : out.Pairwise (fun a b => a.Email ≠ b.Email) :=
    hp.symm.pairwise hd (fun h => Ne.symm h)
  have hs2 : out.Pairwise before := by
    refine List.Pairwise.imp_of_mem ?_ (hs.and hd2)
    intro a b ha hb hab
    have hna := hr a (hp.subset ha)
    have hnb := hr b (hp.subset hb)
    rcases before_total a b hab.2 with h | h
    · exact h
    · have := (less_iff_before b a hnb hna).2 h
      rw [hab.1] at this
      cases this
  exact sorted_perm_eq before out (sortSlice less items)
    (hp.trans (sortSlice_perm less items).symm) hs2 (sortSlice_sorted items hr hd)
    (fun a _ b _ => before_asymm a b)

/-- C3 (sort order): for entries with pairwise distinct emails and
non-negative counts, the list `sort.Slice` leaves for the renderer is a
permutation of the entries in which every entry `x` placed before an entry
`y` has more commits, or as many and the byte-wise smaller email; the
entries (5, b@x), (5, a@x), (10, c@x) come out as c@x, a@x, b@x. -/
theorem sortSlice_order (items : List Contribution)
    (hd : items.Pairwise (fun a b => a.Email ≠ b.Email))
    (hr : ∀ c ∈ items, 0 ≤ c.Commits ∧ c.Commits < 2 ^ 63) :
    (sortSlice less items).Perm items ∧
    (sortSlice less items).Pairwise (fun x y =>
      x.Commits > y.Commits ∨ (x.Commits = y.Commits ∧ strLt x.Email y.Email = true)) ∧
    (sortSlice less [⟨[], [], "b@x".toList, 5⟩, ⟨[], [], "a@x".toList, 5⟩,
        ⟨[], [], "c@x".toList, 10⟩]).map (fun c => c.Email) =
      ["c@x".toList, "a@x".toList, "b@x".toList] :=
  ⟨sortSlice_perm less items, sortSlice_sorted items hr hd, by decide⟩

/-- The three entries (5, b@x), (5, a@x), (10, c@x) come out as c@x, a@x,
b@x. -/
theorem sortSlice_order_witness :
    (sortSlice less [⟨[], "B".toList, "b@x".toList, 5⟩, ⟨[], "A".toList, "a@x".toList, 5⟩,
        ⟨[], "C".toList, "c@x".toList, 10⟩]).Pairwise (fun x y =>
      x.Commits > y.Commits ∨ (x.Commits = y.Commits ∧ strLt x.Email y.Email = true)) :=
  (sortSlice_order [⟨[], "B".toList, "b@x".toList, 5⟩, ⟨[], "A".toList, "a@x".toList, 5⟩,
        ⟨[], "C".toList, "c@x".toList, 10⟩] (by decide) (by decide)).2.1

/-! ### The shortlog pattern on a well-formed line (C4) -/

theorem char_le_iff (a b : Char) : a ≤ b ↔ a.toNat ≤ b.toNat := by
  rw [Char.le_def, UInt32.le_def, BitVec.le_def]
  rfl

theorem starAtom_full (a : Atom) (k : MState → Option Caps) (caps v : Caps) (rest : Str)
    (hrest : ∀ c cs, rest = c :: cs → a.test c = false) :
    ∀ (xs : Str) (pos : Nat), (∀ x ∈ xs, a.test x = true) →
      k ⟨pos + xs.length, rest, caps⟩ = some v →
      starAtom a k pos (xs ++ rest) caps = some v := by
  intro xs
  induction xs with
  | nil =>
    intro pos _ hk
    simp only [List.nil_append, List.length_nil, Nat.add_zero] at hk ⊢
    cases rest with
    | nil => exact hk
    | cons c cs =>
      unfold starAtom
      rw [hrest c cs rfl]
      exact hk
  | cons x xs ih =>
    intro pos hxs hk
    simp only [List.cons_append]
    unfold starAtom
    rw [if_pos (hxs x (List.mem_cons_self _ _))]
    have hk2 : k ⟨pos + 1 + xs.length, rest, caps⟩ = some v := by
      rw [← hk]; congr 2; simp only [List.length_cons]; omega
    rw [ih (pos + 1) (fun y hy => hxs y (List.mem_cons_of_mem _ hy)) hk2]

theorem starAtom_backtrack (a : Atom) (k : MState → Option Caps) (caps v : Caps) (c : Char)
    (rest : Str) (hc : a.test c = true)
    (hrest : ∀ d ds, rest = d :: ds → a.test d = false) :
    ∀ (xs : Str) (pos : Nat), (∀ x ∈ xs, a.test x = true) →
      k ⟨pos + xs.length + 1, rest, caps⟩ = none →
      k ⟨pos + xs.length, c :: rest, caps⟩ = some v →
      starAtom a k pos (xs ++ c :: rest) caps = some v := by
  intro xs
  induction xs with
  | nil =>
    intro pos _ hn hk
    simp only [List.nil_append, List.length_nil, Nat.add_zero] at hn hk ⊢
    unfold starAtom
    rw [if_pos hc]
    have h0 : starAtom a k (pos + 1) rest caps = none := by
      cases rest with
      | nil => exact hn
      | cons d ds =>
        unfold starAtom
        rw [hrest d ds rfl]
        exact hn
    rw [h0]
    exact hk
  | cons x xs ih =>
    intro pos hxs hn hk
    simp only [List.cons_append]
    unfold starAtom
    rw [if_pos (hxs x (List.mem_cons_self _ _))]
    have hn2 : k ⟨pos + 1 + xs.length + 1, rest, caps⟩ = none := by
      rw [← hn]; congr 2; simp only [List.length_cons]; omega
    have hk2 : k ⟨pos + 1 + xs.length, c :: rest, caps⟩ = some v := by
      rw [← hk]; congr 2; simp only [List.length_cons]; omega
    rw [ih (pos + 1) (fun y hy => hxs y (List.mem_cons_of_mem _ hy)) hn2 hk2]

theorem starAtom_stop (a : Atom) (k : MState → Option Caps) (caps : Caps) (pos : Nat)
    (c : Char) (cs : Str) (hc : a.test c = false) :
    starAtom a k pos (c :: cs) caps = k ⟨pos, c :: cs, caps⟩ := by
  unfold starAtom
  rw [hc]
  rfl

theorem notLt_test (c : Char) : notLt.test c = true ↔ c ≠ '<' := by
  unfold notLt Atom.test
  simp only [List.any_cons, List.any_nil, Bool.or_false, bne_iff_ne, ne_eq,
    decide_eq_true_eq]
  constructor
  · intro h e; subst e; exact h ⟨le_refl _, le_refl _⟩
  · intro h e; exact h (le_antisymm e.2 e.1)

theorem notGt_test (c : Char) : notGt.test c = true ↔ c ≠ '>' := by
  unfold notGt Atom.test
  simp only [List.any_cons, List.any_nil, Bool.or_false, bne_iff_ne, ne_eq,
    decide_eq_true_eq]
  constructor
  · intro h e; subst e; exact h ⟨le_refl _, le_refl _⟩
  · intro h e; exact h (le_antisymm e.2 e.1)

theorem digit_test (c : Char) : digit.test c = true ↔ ('0' ≤ c ∧ c ≤ '9') := by
  unfold digit Atom.test
  simp only [List.any_cons, List.any_nil, Bool.or_false, bne_iff_ne, ne_eq,
    Bool.not_eq_false, decide_eq_true_eq]

theorem take_length_sub {α : Type} (xs ys : List α) :
    (xs ++ ys).take ((xs ++ ys).length - ys.length) = xs := by
  rw [List.length_append, Nat.add_sub_cancel, List.take_left']
  rfl

theorem regexContribution_run (d : Char) (ds name email : Str)
    (hd : digit.test d = true) (hds : ∀ c ∈ ds, digit.test c = true)
    (hname : ∀ c ∈ name, notLt.test c = true) (hemail : ∀ c ∈ email, notGt.test c = true) :
    (Re.group 0 regexContribution).run
        ⟨0, (d :: ds) ++ '\t' :: (name ++ ' ' :: '<' :: (email ++ ['>'])), []⟩
        (fun s => some s.caps) =
      some [(1, d :: ds), (2, name), (3, email),
        (0, (d :: ds) ++ '\t' :: (name ++ ' ' :: '<' :: (email ++ ['>'])))] := by
  simp only [Re.run, regexContribution, List.cons_append, if_true, hd]
  refine starAtom_full _ _ _ _ _ ?_ ds _ hds ?_
  · intro c cs h
    cases h
    decide
  simp only [Atom.test, decide_True, if_true]
  refine starAtom_backtrack _ _ _ _ ' ' _ (by decide) ?_ name _ hname ?_ ?_
  · intro c cs h
    cases h
    decide
  · simp only [Atom.test]
    rw [if_neg (by decide)]
  · simp only [Atom.test, decide_True, if_true]
    rw [starAtom_stop _ _ _ _ _ _ (by decide)]
    simp only [decide_True, if_true]
    refine starAtom_full _ _ _ _ _ ?_ email _ hemail ?_
    · intro c cs h
      cases h
      decide
    simp only [decide_True, if_true, List.length_nil, Nat.sub_zero, List.take_length]
    have h1 := take_length_sub (d :: ds) ('\t' :: (name ++ ' ' :: '<' :: (email ++ ['>'])))
    have h2 := take_length_sub name (' ' :: '<' :: (email ++ ['>']))
    have h3 := take_length_sub email ['>']
    simp only [List.cons_append] at h1
    rw [h1, h2, h3]
    rfl

theorem findStringSubmatch_contribution (d : Char) (ds name email : Str)
    (hd : digit.test d = true) (hds : ∀ c ∈ ds, digit.test c = true)
    (hname : ∀ c ∈ name, notLt.test c = true) (hemail : ∀ c ∈ email, notGt.test c = true) :
    findStringSubmatch regexContribution
        ((d :: ds) ++ '\t' :: (name ++ ' ' :: '<' :: (email ++ ['>']))) =
      some [(d :: ds) ++ '\t' :: (name ++ ' ' :: '<' :: (email ++ ['>'])), d :: ds, name,
        email] := by
  have hrun := regexContribution_run d ds name email hd hds hname hemail
  have hfind : findFrom regexContribution 0
      ((d :: ds) ++ '\t' :: (name ++ ' ' :: '<' :: (email ++ ['>']))) =
      some [(1, d :: ds), (2, name), (3, email),
        (0, (d :: ds) ++ '\t' :: (name ++ ' ' :: '<' :: (email ++ ['>'])))] := by
    simp only [List.cons_append] at hrun ⊢
    unfold findFrom
    rw [hrun]
  unfold findStringSubmatch
  rw [hfind]
  have hn : regexContribution.numSubexp + 1 = 4 := rfl
  have hr : List.range 4 = [0, 1, 2, 3] := by decide
  rw [hn, hr]
  rfl

theorem dropWhile_prefix {α : Type} (p : α → Bool) (x : α) (xs : List α) (hx : p x = false) :
    ∀ pre : List α, (∀ c ∈ pre, p c = true) → (pre ++ x :: xs).dropWhile p = x :: xs := by
  intro pre
  induction pre with
  | nil => intro _; simp only [List.nil_append, List.dropWhile_cons, hx]; rfl
  | cons c cs ih =>
    intro h
    simp only [List.cons_append, List.dropWhile_cons, h c (List.mem_cons_self _ _), if_true]
    exact ih (fun y hy => h y (List.mem_cons_of_mem _ hy))

theorem trimSpace_core (pre post mid : Str) (d e : Char) (hd : isSpace d = false)
    (he : isSpace e = false) (hpre : ∀ c ∈ pre, isSpace c = true)
    (hpost : ∀ c ∈ post, isSpace c = true) :
    trimSpace (pre ++ (d :: (mid ++ [e])) ++ post) = d :: (mid ++ [e]) := by
  unfold trimSpace
  rw [List.append_assoc, List.cons_append, dropWhile_prefix isSpace d _ hd pre hpre]
  have hrev : (d :: (mid ++ [e] ++ post)).reverse = post.reverse ++ e :: (d :: mid).reverse := by
    simp
  rw [hrev, dropWhile_prefix isSpace e _ he post.reverse
    (fun c hc => hpost c (List.mem_reverse.1 hc))]
  simp

theorem digit_toNat (c : Char) (h : '0' ≤ c ∧ c ≤ '9') : 48 ≤ c.toNat ∧ c.toNat ≤ 57 := by
  have h1 := (char_le_iff _ _).1 h.1
  have h2 := (char_le_iff _ _).1 h.2
  exact ⟨h1, h2⟩

theorem digit_not_space (c : Char) (h : '0' ≤ c ∧ c ≤ '9') : isSpace c = false := by
  have hn := digit_toNat c h
  unfold isSpace
  simp only [Bool.or_eq_false_iff, decide_eq_false_iff_not, Bool.and_eq_false_imp,
    decide_eq_true_eq]
  omega

theorem digitsValue_eq :
    ∀ (ds : Str) (d : Char) (acc : Nat), (∀ c ∈ d :: ds, '0' ≤ c ∧ c ≤ '9') →
      digitsValue (d :: ds) acc =
        some ((d :: ds).foldl (fun acc c => acc * 10 + (c.toNat - '0'.toNat)) acc) := by
  intro ds
  induction ds with
  | nil =>
    intro d acc h
    unfold digitsValue
    rw [if_pos (h d (List.mem_cons_self _ _))]
    rfl
  | cons e es ih =>
    intro d acc h
    unfold digitsValue
    rw [if_pos (h d (List.mem_cons_self _ _))]
    rw [ih e _ (fun c hc => h c (List.mem_cons_of_mem _ hc))]
    rfl

theorem atoi_digits (d : Char) (ds : Str) (h : ∀ c ∈ d :: ds, '0' ≤ c ∧ c ≤ '9')
    (hfit : decimalValue (d :: ds) < 2 ^ 63) :
    atoi (d :: ds) = some (decimalValue (d :: ds) : Int) := by
  have hd := digit_toNat d (h d (List.mem_cons_self _ _))
  have hv := digitsValue_eq ds d 0 h
  unfold atoi
  split
  · rename_i ds1 heq
    exfalso
    cases heq
    revert hd
    decide
  · rename_i ds1 heq
    exfalso
    cases heq
    revert hd
    decide
  · rw [hv]
    unfold decimalValue at hfit
    simp only [if_pos hfit]
    rfl

/-- C4 (parser exactness): for a non-empty string `N` of decimal digits
whose value fits `int`, a name without `<` and an email without `>` other
than the bot identity, `parseContribution` with the shortlog pattern, applied
to `N`, TAB, name, ` <`, email, `>` with any white space around, returns the
record with exactly that name and email, the value of `N` as `Commits` and
an empty `Login`. -/
theorem parseContribution_exact (N name email pre post : Str)
    (hN : N ≠ []) (hdigits : ∀ c ∈ N, '0' ≤ c ∧ c ≤ '9') (hfit : decimalValue N < 2 ^ 63)
    (hname : '<' ∉ name) (hemail : '>' ∉ email) (hbot : email ≠ bot)
    (hpre : ∀ c ∈ pre, isSpace c = true) (hpost : ∀ c ∈ post, isSpace c = true) :
    parseContribution regexContribution
        (pre ++ (N ++ '\t' :: (name ++ ' ' :: '<' :: (email ++ ['>']))) ++ post) =
      some { Login := [], Name := name, Email := email, Commits := (decimalValue N : Int) } := by
  cases N with
  | nil => exact absurd rfl hN
  | cons d ds =>
    have hd := hdigits d (List.mem_cons_self _ _)
    have hcore : (d :: ds) ++ '\t' :: (name ++ ' ' :: '<' :: (email ++ ['>'])) =
        d :: ((ds ++ '\t' :: (name ++ ' ' :: '<' :: email)) ++ ['>']) := by
      simp
    have htrim := trimSpace_core pre post (ds ++ '\t' :: (name ++ ' ' :: '<' :: email)) d '>'
      (digit_not_space d hd) (by decide) hpre hpost
    rw [← hcore] at htrim
    have hfind := findStringSubmatch_contribution d ds name email
      ((digit_test d).2 hd)
      (fun c hc => (digit_test c).2 (hdigits c (List.mem_cons_of_mem _ hc)))
      (fun c hc => (notLt_test c).2 (fun e => hname (e ▸ hc)))
      (fun c hc => (notGt_test c).2 (fun e => hemail (e ▸ hc)))
    have hatoi := atoi_digits d ds hdigits hfit
    unfold parseContribution
    simp only [htrim, hfind]
    rw [if_neg (by simp)]
    simp only [List.length_cons, List.length_nil, List.getD_cons_succ, List.getD_cons_zero]
    rw [if_neg (by decide), if_neg hbot, if_pos (by simp), hatoi]

/-- The line `12<TAB>Bob Smith  <bob@x.org>` between a blank and a carriage
return: the name keeps its trailing blank. -/
theorem parseContribution_exact_witness :
    parseContribution regexContribution
        (" ".toList ++ ("12".toList ++ '\t' :: ("Bob Smith ".toList ++ ' ' :: '<' ::
          ("bob@x.org".toList ++ ['>']))) ++ "\r".toList) =
      some { Login := [], Name := "Bob Smith ".toList, Email := "bob@x.org".toList,
             Commits := 12 } :=
  parseContribution_exact "12".toList "Bob Smith ".toList "bob@x.org".toList " ".toList
    "\r".toList (by decide) (by decide) (by decide) (by decide) (by decide) (by decide)
    (by decide) (by decide)

/-! ### Enumeration order of the map (C10) -/

set_option maxRecDepth 100000 in
/-- C10, as stated, fails: the same shortlog, mailmap, search service and
format give different markdown output when the map is enumerated in
insertion order and in the reverse order, because the batches differ and
with them the logins found. -/
theorem main_depends_on_enumeration :
    main "markdown".toList sixAuthors [] bestMatchApi id ≠
      main "markdown".toList sixAuthors [] bestMatchApi List.reverse := by
  decide

theorem aggregate_inRange (mailmap list : Str) (kv : Str × Contribution)
    (h : kv ∈ aggregate mailmap list) : InRange kv.2.Commits := by
  obtain ⟨e, c⟩ := kv
  have hg := (aggregate_entry mailmap list e c h).1
  rw [aggregate_lookup] at hg
  split at hg
  · simp only [Option.some.injEq] at hg
    rw [← hg]
    exact wrapInt_inRange _
  · cases hg

theorem keyed_distinct_emails (m : GoMap Contribution) (hm : Keyed m) :
    (m.map fun kv => kv.2).Pairwise (fun a b => a.Email ≠ b.Email) := by
  have h1 : m.map (fun kv => kv.1) = (m.map fun kv => kv.2).map (fun c => c.Email) := by
    rw [List.map_map]
    exact List.map_congr_left (fun kv hkv => hm.2 kv hkv)
  have h2 := hm.1
  rw [h1] at h2
  exact List.pairwise_map.1 h2

/-- The sorted `items` do not depend on the enumeration of a map whose
counts are non-negative. -/
theorem sortSlice_enumeration (m e1 e2 : GoMap Contribution) (hm : Keyed m)
    (hr : ∀ kv ∈ m, NonNeg kv.2) (h1 : e1.Perm m) (h2 : e2.Perm m) :
    sortSlice less (e1.map fun kv => kv.2) = sortSlice less (e2.map fun kv => kv.2) := by
  have hd := keyed_distinct_emails m hm
  have hp1 : (e1.map fun kv => kv.2).Perm (m.map fun kv => kv.2) := h1.map _
  have hp2 : (e2.map fun kv => kv.2).Perm (m.map fun kv => kv.2) := h2.map _
  have hd1 := hp1.symm.pairwise hd (fun h => Ne.symm h)
  have hd2 := hp2.symm.pairwise hd (fun h => Ne.symm h)
  have hr1 : ∀ c ∈ e1.map (fun kv => kv.2), NonNeg c := by
    intro c hc
    obtain ⟨kv, hkv, rfl⟩ := List.mem_map.1 hc
    exact hr kv (h1.subset hkv)
  have hr2 : ∀ c ∈ e2.map (fun kv => kv.2), NonNeg c := by
    intro c hc
    obtain ⟨kv, hkv, rfl⟩ := List.mem_map.1 hc
    exact hr kv (h2.subset hkv)
  exact sorted_perm_eq before _ _
    (((sortSlice_perm less _).trans (hp1.trans hp2.symm)).trans (sortSlice_perm less _).symm)
    (sortSlice_sorted _ hr1 hd1) (sortSlice_sorted _ hr2 hd2)
    (fun a _ b _ => before_asymm a b)

/-- When the answer to the k-th request does not depend on the emails in
it, the mapping depends only on the number of emails. -/
theorem getGitHubLoginNames_length (api : SearchApi) (emails1 emails2 : List Str)
    (hapi : ∀ k q1 q2, api k q1 = api k q2) (hl : emails1.length = emails2.length) :
    (getGitHubLoginNames api emails1).1 = (getGitHubLoginNames api emails2).1 := by
  rw [getGitHubLoginNames_eq, getGitHubLoginNames_eq, hl]
  have hb : batchOutcome api emails1 = batchOutcome api emails2 := by
    funext k
    unfold batchOutcome
    rw [hapi k (batchOf emails1 k) (batchOf emails2 k)]
  simp only [hb]

set_option maxRecDepth 100000 in
/-- After an overflow the comparison handed to `sort.Slice` is no longer an
order, and even the plain output depends on the enumeration of the map. -/
theorem main_plain_after_overflow :
    main "plain".toList wrappedCounts [] bestMatchApi id ≠
      main "plain".toList wrappedCounts [] bestMatchApi List.reverse := by
  decide

theorem perm_mapGet {V : Type} (m1 m2 : GoMap V) (hp : m1.Perm m2)
    (hn : (m1.map fun kv => kv.1).Nodup) (k : Str) : mapGet m1 k = mapGet m2 k := by
  have hn2 : (m2.map fun kv => kv.1).Nodup := (hp.map _).nodup_iff.1 hn
  cases h1 : mapGet m1 k with
  | some v =>
    exact (mem_mapGet m2 k v hn2 (hp.subset (mapGet_mem m1 k v h1))).symm
  | none =>
    cases h2 : mapGet m2 k with
    | none => rfl
    | some v =>
      have := mem_mapGet m1 k v hn (hp.symm.subset (mapGet_mem m2 k v h2))
      rw [h1] at this
      cases this

/-- The loop `for k, v := range r` of `getGitHubLoginNames` gives the same
mapping in whatever order the entries of `r` are enumerated. -/
theorem mergeInto_enumeration (result r1 r2 : GoMap Str) (hp : r1.Perm r2)
    (hn : (r1.map fun kv => kv.1).Nodup) (key : Str) :
    mapGet (mergeInto result r1) key = mapGet (mergeInto result r2) key := by
  rw [mapGet_mergeInto, mapGet_mergeInto, perm_mapGet r1 r2 hp hn key]

theorem findSome_const {α β : Type} (f : α → Option β) (v : β) :
    ∀ l : List α, (∀ x ∈ l, f x = none ∨ f x = some v) → (∃ x ∈ l, f x = some v) →
      l.findSome? f = some v := by
  intro l
  induction l with
  | nil => intro _ h; obtain ⟨x, hx, _⟩ := h; cases hx
  | cons a t ih =>
    intro hall hex
    rw [List.findSome?_cons]
    rcases hall a (List.mem_cons_self _ _) with h | h
    · rw [h]
      obtain ⟨x, hx, hfx⟩ := hex
      rcases List.mem_cons.1 hx with h1 | h1
      · subst h1; rw [h] at hfx; cases hfx
      · exact ih (fun y hy => hall y (List.mem_cons_of_mem _ hy)) ⟨x, h1, hfx⟩
    · rw [h]

theorem mem_batches (emails : List Str) (key : Str) :
    key ∈ emails ↔ ∃ k, k < (emails.length + 4) / 5 ∧ key ∈ batchOf emails k := by
  have hf : ((List.range ((emails.length + 4) / 5)).map (batchOf emails)).flatten = emails := by
    rw [batches_flatten]
    exact List.take_of_length_le (by omega)
  constructor
  · intro h
    rw [← hf] at h
    obtain ⟨b, hb, hkey⟩ := List.mem_flatten.1 h
    obtain ⟨k, hk, rfl⟩ := List.mem_map.1 hb
    exact ⟨k, List.mem_range.1 hk, hkey⟩
  · rintro ⟨k, hk, hkey⟩
    rw [← hf]
    exact List.mem_flatten.2 ⟨_, List.mem_map.2 ⟨k, List.mem_range.2 hk, rfl⟩, hkey⟩

/-- With a service that answers every queried email on its own, the
returned mapping is the assignment restricted to the input emails. -/
theorem getGitHubLoginNames_answers (api : SearchApi) (user : Str → Option Str)
    (hapi : AnswersEachEmail api user) (emails : List Str) (key : Str) :
    mapGet (getGitHubLoginNames api emails).1 key = if key ∈ emails then user key else none := by
  rw [getGitHubLoginNames_lookup]
  have hout : ∀ k, ∃ r, batchOutcome api emails k = some r ∧
      mapGet r key = if key ∈ batchOf emails k then user key else none := by
    intro k
    obtain ⟨rslt, h1, h2⟩ := hapi k (batchOf emails k)
    exact ⟨collectLogins rslt, by unfold batchOutcome; rw [h1]; rfl, h2 key⟩
  cases hu : user key with
  | none =>
    simp only [ite_self]
    apply List.findSome?_eq_none_iff.2
    intro r hr
    obtain ⟨k, _, hk⟩ := List.mem_filterMap.1 hr
    obtain ⟨r1, h1, h2⟩ := hout k
    rw [hk] at h1
    cases h1
    rw [h2, hu]
    simp
  | some login =>
    by_cases hmem : key ∈ emails
    · rw [if_pos hmem]
      apply findSome_const
      · intro r hr
        obtain ⟨k, _, hk⟩ := List.mem_filterMap.1 hr
        obtain ⟨r1, h1, h2⟩ := hout k
        rw [hk] at h1
        cases h1
        rw [h2, hu]
        by_cases hb : key ∈ batchOf emails k
        · right; rw [if_pos hb]
        · left; rw [if_neg hb]
      · obtain ⟨k, hk, hkey⟩ := (mem_batches emails key).1 hmem
        obtain ⟨r1, h1, h2⟩ := hout k
        refine ⟨r1, List.mem_filterMap.2 ⟨k, List.mem_range.2 hk, h1⟩, ?_⟩
        rw [h2, if_pos hkey, hu]
    · rw [if_neg hmem]
      apply List.findSome?_eq_none_iff.2
      intro r hr
      obtain ⟨k, hkr, hk⟩ := List.mem_filterMap.1 hr
      obtain ⟨r1, h1, h2⟩ := hout k
      rw [hk] at h1
      cases h1
      rw [h2]
      have hb : key ∉ batchOf emails k := fun hb =>
        hmem ((mem_batches emails key).2 ⟨k, List.mem_range.1 hkr, hb⟩)
      rw [if_neg hb]

/-- Assigning logins to the sorted entries of a map gives the same list for
two enumerations when the two mappings agree on the emails of the map. -/
theorem setLogin_congr (users1 users2 : GoMap Str) (items : List Contribution)
    (h : ∀ c ∈ items, mapGet users1 c.Email = mapGet users2 c.Email) :
    items.map (setLogin users1) = items.map (setLogin users2) := by
  apply List.map_congr_left
  intro c hc
  unfold setLogin
  rw [h c hc]

theorem enumeration_emails (m e1 : GoMap Contribution) (hm : Keyed m) (h1 : e1.Perm m)
    (c : Contribution) (hc : c ∈ sortSlice less (e1.map fun kv => kv.2)) :
    c.Email ∈ e1.map fun kv => kv.1 := by
  have hc1 := (sortSlice_perm less _).subset hc
  obtain ⟨kv, hkv, rfl⟩ := List.mem_map.1 hc1
  rw [← hm.2 kv (h1.subset hkv)]
  exact List.mem_map.2 ⟨kv, hkv, rfl⟩

theorem directory_fold (user : Str → Option Str) (key : Str) :
    ∀ (q : List Str) (r : GoMap Str),
      mapGet ((q.filterMap fun e =>
          (user e).map fun login => GitHubUser.mk login [⟨"email".toList, e⟩]).foldl
        (fun r u =>
          u.Matches.foldl (fun r m =>
            match mapGet r m.Fragment with
            | some _ => r
            | none => mapSet r m.Fragment u.Login) r) r) key =
        match mapGet r key with
        | some v => some v
        | none => if key ∈ q then user key else none := by
  intro q
  induction q with
  | nil => intro r; simp only [List.filterMap_nil, List.foldl_nil, List.not_mem_nil, if_false]; cases mapGet r key <;> rfl
  | cons e t ih =>
    intro r
    rw [List.filterMap_cons]
    cases hu : user e with
    | none =>
      simp only [Option.map_none']
      rw [ih]
      cases hr : mapGet r key with
      | some v => rfl
      | none =>
        simp only [List.mem_cons]
        by_cases hk : key = e
        · subst hk
          simp [hu]
        · simp [hk]
    | some login =>
      simp only [Option.map_some', List.foldl_cons, List.foldl_nil]
      rw [ih]
      cases he : mapGet r e with
      | some w =>
        simp only []
        cases hr : mapGet r key with
        | some v => rfl
        | none =>
          have hk : key ≠ e := by
            intro hk; rw [hk, he] at hr; cases hr
          simp [hk]
      | none =>
        simp only [mapGet_mapSet]
        by_cases hk : e = key
        · subst hk
          simp [he, hu]
        · rw [if_neg hk]
          have hk2 : ¬ key = e := fun h => hk h.symm
          cases hr : mapGet r key with
          | some v => rfl
          | none => simp [hk2]

/-- The directory service answers every queried email on its own. -/
theorem directoryApi_answers (user : Str → Option Str) :
    AnswersEachEmail (directoryApi user) user := by
  intro k q
  refine ⟨_, rfl, ?_⟩
  intro key
  have := directory_fold user key q []
  simp only [mapGet] at this
  exact this

/-- C10 (amended): for identical inputs and whatever the order in which
the map is enumerated, provided no aggregated count is negative (none has
wrapped around), the sorted list of entries is the same, so the plain output
is the same.  The markdown output is the same when the two enumerations
list the emails in the same order, when the search service answers every
queried email on its own, or when its answer to the k-th request does not
depend on the emails in it; in general the `Login` column depends on the
enumeration order, from which the batches are cut. -/
theorem main_deterministic (format list mailmap : Str) (api : SearchApi)
    (enum1 enum2 : GoMap Contribution → GoMap Contribution)
    (h1 : (enum1 (aggregate mailmap list)).Perm (aggregate mailmap list))
    (h2 : (enum2 (aggregate mailmap list)).Perm (aggregate mailmap list))
    (hpos : ∀ kv ∈ aggregate mailmap list, 0 ≤ kv.2.Commits) :
    sortSlice less ((enum1 (aggregate mailmap list)).map fun kv => kv.2) =
      sortSlice less ((enum2 (aggregate mailmap list)).map fun kv => kv.2) ∧
    (format ≠ "markdown".toList →
      main format list mailmap api enum1 = main format list mailmap api enum2) ∧
    (((enum1 (aggregate mailmap list)).map fun kv => kv.1) =
        ((enum2 (aggregate mailmap list)).map fun kv => kv.1) →
      main format list mailmap api enum1 = main format list mailmap api enum2) ∧
    ((∃ user, AnswersEachEmail api user) →
      main format list mailmap api enum1 = main format list mailmap api enum2) ∧
    ((∀ k q1 q2, api k q1 = api k q2) →
      main format list mailmap api enum1 = main format list mailmap api enum2) := by
  have hr : ∀ kv ∈ aggregate mailmap list, NonNeg kv.2 := fun kv hkv =>
    ⟨hpos kv hkv, (aggregate_inRange mailmap list kv hkv).2⟩
  have hk := keyed_aggregate mailmap list
  have hsort := sortSlice_enumeration (aggregate mailmap list) _ _ hk hr h1 h2
  refine ⟨hsort, ?_, ?_, ?_, ?_⟩
  · intro hf
    unfold main mainFrom
    simp only [if_neg hf, hsort]
  · intro he
    unfold main mainFrom
    simp only [hsort, he]
  · rintro ⟨user, hapi⟩
    unfold main mainFrom
    simp only [hsort]
    split
    · rw [setLogin_congr
        (getGitHubLoginNames api ((enum1 (aggregate mailmap list)).map fun kv => kv.1)).1
        (getGitHubLoginNames api ((enum2 (aggregate mailmap list)).map fun kv => kv.1)).1]
      intro c hc
      rw [getGitHubLoginNames_answers api user hapi, getGitHubLoginNames_answers api user hapi]
      have hc1 : c.Email ∈ (enum1 (aggregate mailmap list)).map fun kv => kv.1 :=
        enumeration_emails _ _ hk h1 c (hsort ▸ hc)
      have hc2 : c.Email ∈ (enum2 (aggregate mailmap list)).map fun kv => kv.1 :=
        enumeration_emails _ _ hk h2 c hc
      rw [if_pos hc1, if_pos hc2]
    · rfl
  · intro hapi
    unfold main mainFrom
    simp only [hsort]
    have hl : ((enum1 (aggregate mailmap list)).map fun kv => kv.1).length =
        ((enum2 (aggregate mailmap list)).map fun kv => kv.1).length := by
      rw [List.length_map, List.length_map, h1.length_eq, h2.length_eq]
    rw [getGitHubLoginNames_length api _ _ hapi hl]

set_option maxRecDepth 100000 in
/-- The six authors in markdown format with a directory service that knows
the logins of `a@x` and `f@x`: insertion order and reverse order give the
same output. -/
theorem main_deterministic_witness :
    (∀ kv ∈ aggregate [] sixAuthors, 0 ≤ kv.2.Commits) ∧
    main "markdown".toList sixAuthors []
        (directoryApi fun e => if e = "a@x".toList then some "alice".toList
          else if e = "f@x".toList then some "frank".toList else none) id =
      main "markdown".toList sixAuthors []
        (directoryApi fun e => if e = "a@x".toList then some "alice".toList
          else if e = "f@x".toList then some "frank".toList else none) List.reverse :=
  ⟨by decide,
   (main_deterministic "markdown".toList sixAuthors [] _ id List.reverse
      (List.Perm.refl _) (List.reverse_perm _) (by decide)).2.2.2.1
      ⟨_, directoryApi_answers _⟩⟩

end Genauthors
